import Mathlib

/-!
Verification of the iCity diary-export pipeline (`icity_export.py`).

The development shallowly embeds the pure core of the program:
records (`Entry`), the two-tier date resolver
(`parse_entry_datetime_parts`), body-text normalization
(`html_to_text_with_breaks`'s string-processing tail), the id
extraction fallback, the aggregation loop with dedup (`scrape_all`),
and the Markdown partitioning (`write_split_markdown`).

Python's `\d` and `\s` regex classes are modelled over their ASCII
portion (the only characters appearing in the data the program
handles); decimal formatting (`str`, `f"{n:02d}"`) reuses Lean's
`Nat.repr`, which produces the same decimal numerals as Python's
`str`.
-/

namespace ICity

/-- The structured data of one diary entry (`@dataclass Entry`). -/
structure Entry where
  id : String
  date_label : String
  datetime_iso : String
  datetime_local : String
  time_label : String
  title : String
  text : String
  location : String
  source_url : String
  deriving DecidableEq, Repr

/-- ASCII decimal digit, the `\d` class as exercised by the program. -/
def isDig (c : Char) : Bool := c.isDigit

/-- ASCII whitespace, the `\s` class as exercised by the program. -/
def isSpace (c : Char) : Bool :=
  c = ' ' || c = '\t' || c = '\n' || c = '\r' || c = '\x0b' || c = '\x0c'

/-- Numeric value of a decimal-digit character (`int` applied to a digit). -/
def digVal (c : Char) : Nat := c.toNat - 48

/-- Value of a string of decimal digits, as `int()` computes it. -/
def digitsToNat (ds : List Char) : Nat :=
  ds.foldl (fun n c => n * 10 + digVal c) 0

/-- Take exactly `k` decimal digits from the front (`\d{k}`). -/
def takeDigits : Nat → List Char → Option (List Char × List Char)
  | 0, s => some ([], s)
  | _ + 1, [] => none
  | k + 1, c :: rest =>
    if isDig c then
      match takeDigits k rest with
      | some (ds, r) => some (c :: ds, r)
      | none => none
    else none

/-- Consume one expected literal character. -/
def expectChar (c : Char) : List Char → Option (List Char)
  | [] => none
  | x :: rest => if x = c then some rest else none

/-- Consume one or more whitespace characters (`\s+`); greedy, and since
the following regex atom is a digit the greedy consumption is exact. -/
def dropSpaces1 : List Char → Option (List Char)
  | [] => none
  | c :: rest => if isSpace c then some (rest.dropWhile isSpace) else none

/-- Tier-1 matcher: Python `re.match` of
`^(\d{4})-(\d{2})-(\d{2})\s+(\d{2}:\d{2})$` against `datetime_local`
(line 339 of the source).  `$` accepts the end of the string or a
single final newline.  On success returns
`(int(g1), int(g2), int(g3), g4)` exactly as line 341 does. -/
def tier1Match (s : List Char) : Option (Nat × Nat × Nat × String) :=
  match takeDigits 4 s with
  | none => none
  | some (ys, r1) =>
    match expectChar '-' r1 with
    | none => none
    | some r2 =>
      match takeDigits 2 r2 with
      | none => none
      | some (mos, r3) =>
        match expectChar '-' r3 with
        | none => none
        | some r4 =>
          match takeDigits 2 r4 with
          | none => none
          | some (ds, r5) =>
            match dropSpaces1 r5 with
            | none => none
            | some r6 =>
              match takeDigits 2 r6 with
              | none => none
              | some (hs, r7) =>
                match expectChar ':' r7 with
                | none => none
                | some r8 =>
                  match takeDigits 2 r8 with
                  | none => none
                  | some (mins, r9) =>
                    if r9 = [] ∨ r9 = ['\n'] then
                      some (digitsToNat ys, digitsToNat mos, digitsToNat ds,
                        String.mk (hs ++ ':' :: mins))
                    else none

/-- Match `\d{1,2}` followed by the literal `stop`, with Python's greedy
backtracking (two digits first, then one).  The two alternatives are
mutually exclusive because `stop` is never a digit, so no further
backtracking can occur.  Returns the numeric value of the digit group
and the remainder after `stop`. -/
def digits12Then (stop : Char) : List Char → Option (Nat × List Char)
  | [] => none
  | a :: rest1 =>
    if isDig a then
      match rest1 with
      | [] => none
      | b :: rest2 =>
        if isDig b then
          match rest2 with
          | [] => none
          | c :: rest3 =>
            if c = stop then some (digVal a * 10 + digVal b, rest3) else none
        else if b = stop then some (digVal a, rest2) else none
    else none

/-- Attempt the date regex `(\d{1,2})月\s*(\d{1,2})日\s*(\d{4})` anchored
at the head of `s`; returns `(month, day, year)` (groups 1, 2, 3). -/
def dateMatchAt (s : List Char) : Option (Nat × Nat × Nat) :=
  match digits12Then '月' s with
  | none => none
  | some (mo, r1) =>
    match digits12Then '日' (r1.dropWhile isSpace) with
    | none => none
    | some (d, r2) =>
      match takeDigits 4 (r2.dropWhile isSpace) with
      | none => none
      | some (ys, _) => some (mo, d, digitsToNat ys)

/-- Python `re.search` of the date pattern over `date_label` (line 343):
try every start position left to right. -/
def searchDate : List Char → Option (Nat × Nat × Nat)
  | [] => none
  | c :: rest =>
    match dateMatchAt (c :: rest) with
    | some r => some r
    | none => searchDate rest

/-- Attempt the time regex `(\d{1,2}):(\d{2})` anchored at the head of
`s`; returns `(hour, minute)`. -/
def timeMatchAt (s : List Char) : Option (Nat × Nat) :=
  match digits12Then ':' s with
  | none => none
  | some (hh, r1) =>
    match takeDigits 2 r1 with
    | none => none
    | some (ms, _) => some (hh, digitsToNat ms)

/-- Python `re.search` of the time pattern over `time_label` (line 344). -/
def searchTime : List Char → Option (Nat × Nat)
  | [] => none
  | c :: rest =>
    match timeMatchAt (c :: rest) with
    | some r => some r
    | none => searchTime rest

/-- Python `f"{n:02d}"`: decimal representation left-padded with zeros
to width 2. -/
def pad2 (n : Nat) : String :=
  String.mk (List.replicate (2 - (Nat.repr n).length) '0' ++ (Nat.repr n).data)

/-- Python `f"{n:04d}"`: decimal representation left-padded with zeros
to width 4. -/
def pad4 (n : Nat) : String :=
  String.mk (List.replicate (4 - (Nat.repr n).length) '0' ++ (Nat.repr n).data)

/-- The combined `f"{hh:02d}:{mm:02d}"` of line 351. -/
def hmOfParts (hh mm : Nat) : String := pad2 hh ++ ":" ++ pad2 mm

/-- `parse_entry_datetime_parts` (lines 333-353): tier 1 parses
`datetime_local` against the strict pattern when the field is
non-empty; otherwise tier 2 combines a date found in `date_label` with
a time found in `time_label`; otherwise `None`. -/
def parse_entry_datetime_parts (e : Entry) : Option (Nat × Nat × Nat × String) :=
  match (if e.datetime_local = "" then none else tier1Match e.datetime_local.data) with
  | some r => some r
  | none =>
    match searchDate e.date_label.data, searchTime e.time_label.data with
    | some (mo, d, y), some (hh, mm) => some (y, mo, d, hmOfParts hh mm)
    | _, _ => none

/-- Modelled from the spec: the DateResolver contract stated in its own
words — tier 1 applies whenever `datetime_local` matches the strict
pattern (no emptiness proviso), tier 2 applies otherwise when both
label patterns match, and the record is unresolved if neither tier
matches.  Used only as the comparison point of the refinement claim. -/
def resolveTwoTierSpec (e : Entry) : Option (Nat × Nat × Nat × String) :=
  match tier1Match e.datetime_local.data with
  | some r => some r
  | none =>
    match searchDate e.date_label.data, searchTime e.time_label.data with
    | some (mo, d, y), some (hh, mm) => some (y, mo, d, hmOfParts hh mm)
    | _, _ => none

/-- `scrape_all`'s post-loop dedup (lines 454-463): walk the collected
entries keeping an entry iff its `id` has not been seen before, and
record every processed id in `seen`. -/
def dedupByIdGo (seen : List String) : List Entry → List Entry
  | [] => []
  | e :: rest =>
    if e.id ∈ seen then dedupByIdGo seen rest
    else e :: dedupByIdGo (e.id :: seen) rest

/-- The dedup pass of `scrape_all`, started with an empty `seen` set. -/
def dedupById (entries : List Entry) : List Entry := dedupByIdGo [] entries

/-- The first-occurrence subsequence in the spec's words: keep the head
(the first record carrying its id) and recurse on the remaining records
that carry a different id. -/
def firstOccurrences : List Entry → List Entry
  | [] => []
  | e :: rest =>
    e :: firstOccurrences (rest.filter (fun x => x.id ≠ e.id))
termination_by l => l.length
decreasing_by
  exact Nat.lt_succ_of_le (List.length_filter_le _ _)

/-- Insert `x` into `acc` behind every element `y` with `le y x`; the
insertion step of a stable sort: a later-arriving element lands after
all elements it ties with. -/
def insertBehind (le : α → α → Bool) (x : α) : List α → List α
  | [] => [x]
  | y :: ys => if le y x then y :: insertBehind le x ys else x :: y :: ys

/-- Stable sort by `le`, processing the input left to right; models the
(stable) `list.sort` / `sorted` of Python used at lines 395-396. -/
def stableSort (le : α → α → Bool) (l : List α) : List α :=
  l.foldl (fun acc x => insertBehind le x acc) []

/-- Python string comparison `s <= t`: lexicographic over code points,
with a proper prefix smaller than its extensions.  Executable mirror of
Lean's `String` order (see `strLeCh_iff`). -/
def strLeCh : List Char → List Char → Bool
  | [], _ => true
  | _ :: _, [] => false
  | a :: as, b :: bs => if a = b then strLeCh as bs else decide (a < b)

/-- Comparison of `(hm, entry)` pairs by the sort key of line 396
(`key=lambda x: x[0]`). -/
def hmLe (a b : String × Entry) : Bool := strLeCh a.1.data b.1.data

/-- Lexicographic comparison of `(year, month, day)` keys, as Python's
`sorted` compares the tuples at line 395. -/
def keyLe (a b : (Nat × Nat × Nat) × List (String × Entry)) : Bool :=
  decide (a.1.1 < b.1.1 ∨ (a.1.1 = b.1.1 ∧ (a.1.2.1 < b.1.2.1 ∨
    (a.1.2.1 = b.1.2.1 ∧ a.1.2.2 ≤ b.1.2.2))))

/-- `grouped.setdefault(key, []).append((hm, entry))` over an
insertion-ordered dict modelled as an association list. -/
def addToGroups (gs : List ((Nat × Nat × Nat) × List (String × Entry)))
    (k : Nat × Nat × Nat) (v : String × Entry) :
    List ((Nat × Nat × Nat) × List (String × Entry)) :=
  match gs with
  | [] => [(k, [v])]
  | (k', vs) :: rest =>
    if k' = k then (k', vs ++ [v]) :: rest
    else (k', vs) :: addToGroups rest k v

/-- The grouping loop of `write_split_markdown` (lines 382-388): each
entry with a resolvable date is appended to its day's group; unresolved
entries are skipped. -/
def buildGroups (entries : List Entry) :
    List ((Nat × Nat × Nat) × List (String × Entry)) :=
  entries.foldl
    (fun gs e =>
      match parse_entry_datetime_parts e with
      | none => gs
      | some (y, mo, d, hm) => addToGroups gs (y, mo, d) (hm, e)) []

/-- The day files in the order they are written (lines 395-396):
groups sorted by key, each group's items stably sorted by `hm`. -/
def finalGroups (entries : List Entry) :
    List ((Nat × Nat × Nat) × List (String × Entry)) :=
  (stableSort keyLe (buildGroups entries)).map
    (fun g => (g.1, stableSort hmLe g.2))

/-- `dataclasses.asdict` on an `Entry`: the field-name/value pairs in
declaration order, as serialized into the JSON array (line 469). -/
def asdict (e : Entry) : List (String × String) :=
  [("id", e.id), ("date_label", e.date_label), ("datetime_iso", e.datetime_iso),
   ("datetime_local", e.datetime_local), ("time_label", e.time_label),
   ("title", e.title), ("text", e.text), ("location", e.location),
   ("source_url", e.source_url)]

/-- The JSON output: the array of `asdict(e)` objects (lines 468-469). -/
def jsonExport (entries : List Entry) : List (List (String × String)) :=
  entries.map asdict

/-- Line-boundary characters of Python `str.splitlines`. -/
def isLineBreakCh (c : Char) : Bool :=
  c = '\n' || c = '\r' || c = '\x0b' || c = '\x0c' ||
  c = '\x1c' || c = '\x1d' || c = '\x1e' || c = '\x85' ||
  c = '\u2028' || c = '\u2029'

/-- Python `str.splitlines`: split at line boundaries (treating `\r\n`
as one boundary), no trailing empty line when the text ends at a
boundary, `[]` for the empty string.  `cur` holds the current line's
characters in reverse. -/
def pySplitlinesGo (cur : List Char) : List Char → List (List Char)
  | [] => if cur = [] then [] else [cur.reverse]
  | c :: rest =>
    if isLineBreakCh c = false then pySplitlinesGo (c :: cur) rest
    else
      match rest with
      | [] => [cur.reverse]
      | c2 :: rest2 =>
        if c = '\r' && c2 = '\n' then cur.reverse :: pySplitlinesGo [] rest2
        else cur.reverse :: pySplitlinesGo [] (c2 :: rest2)

/-- `text.splitlines()` of line 163. -/
def pySplitlines (s : List Char) : List (List Char) := pySplitlinesGo [] s

/-- Python `str.rstrip()` (line 163) over the ASCII whitespace the
program encounters. -/
def rstripCh (l : List Char) : List Char :=
  (l.reverse.dropWhile isSpace).reverse

/-- Python `str.strip()` (line 172). -/
def stripCh (l : List Char) : List Char :=
  rstripCh (l.dropWhile isSpace)

/-- The blank-line collapsing loop of lines 164-171: `prevBlank` is
`cleaned and cleaned[-1] == ""` of the Python code (initially false,
since `cleaned` starts empty). -/
def collapseBlankRuns (prevBlank : Bool) : List (List Char) → List (List Char)
  | [] => []
  | ln :: rest =>
    if ln = [] then
      if prevBlank then collapseBlankRuns true rest
      else [] :: collapseBlankRuns true rest
    else ln :: collapseBlankRuns false rest

/-- `"\n".join(...)` of line 172. -/
def joinNl : List (List Char) → List Char
  | [] => []
  | [l] => l
  | l :: ls => l ++ '\n' :: joinNl ls

/-- The pure string-processing tail of `html_to_text_with_breaks`
(lines 163-172), applied to the text produced by the markup walk:
split into lines, right-strip each, collapse blank-line runs, join
with newlines and strip. -/
def normalize_text (s : String) : String :=
  String.mk (stripCh (joinNl (collapseBlankRuns false
    ((pySplitlines s.data).map rstripCh))))

/-- Split a string at `'\n'` characters; the lines of the normalized
output (which contains no other line boundaries). -/
def splitOnNl : List Char → List (List Char)
  | [] => [[]]
  | c :: rest =>
    if c = '\n' then [] :: splitOnNl rest
    else
      match splitOnNl rest with
      | l :: ls => (c :: l) :: ls
      | [] => [[c]]

/-- The `[A-Za-z0-9]` character class of the id regex (line 294). -/
def alnumAscii (c : Char) : Bool := c.isAlpha || c.isDigit

/-- Attempt `/a/([A-Za-z0-9]+)` anchored at the head of `s`: the literal
`/a/` followed by a non-empty greedy run of alphanumerics. -/
def matchAIdAt : List Char → Option (List Char)
  | [] => none
  | [_] => none
  | [_, _] => none
  | c1 :: c2 :: c3 :: rest =>
    if c1 = '/' ∧ c2 = 'a' ∧ c3 = '/' then
      if rest.takeWhile alnumAscii = [] then none
      else some (rest.takeWhile alnumAscii)
    else none

/-- Python `re.search(r"/a/([A-Za-z0-9]+)", href)` (line 294): leftmost
match, scanning start positions left to right. -/
def searchAId : List Char → Option (List Char)
  | [] => none
  | c :: rest =>
    match matchAIdAt (c :: rest) with
    | some seg => some seg
    | none => searchAId rest

/-- The id computation of lines 294-295: the captured segment when the
pattern matches, else the raw href. -/
def extract_entry_id (href : String) : String :=
  match searchAId href.data with
  | some seg => String.mk seg
  | none => href

/-- `is_login_page` (lines 418-420): all three signature substrings
occur in the page. -/
def startsWithCh : List Char → List Char → Bool
  | [], _ => true
  | _ :: _, [] => false
  | p :: ps, c :: cs => p = c && startsWithCh ps cs

/-- Python's substring test `pat in s` on strings as char lists. -/
def containsSub (pat : List Char) : List Char → Bool
  | [] => startsWithCh pat []
  | c :: rest => startsWithCh pat (c :: rest) || containsSub pat rest

/-- `is_login_page(html)` (lines 418-420). -/
def is_login_page (html : String) : Bool :=
  containsSub "开始使用网页版".data html.data
  && containsSub "用户名 / Email".data html.data
  && containsSub "登入".data html.data

/-- The page-URL scheme of lines 429-432: the unmodified list URL for
page 1, `?page=<n>` appended otherwise. -/
def pageUrl (postsUrl : String) (page : Nat) : String :=
  if page = 1 then postsUrl else postsUrl ++ "?page=" ++ Nat.repr page

/-- The error message of line 439. -/
def sessionExpiredMsg (page : Nat) : String :=
  "抓取到第 " ++ Nat.repr page ++ " 页时会话失效，请重新运行"

/-- The outcome of the scrape loop: the requested URLs in order,
together with the collected entries or the failure message.  `fuelOut`
is the artifact of bounding the unbounded `while True` with fuel; the
theorems below always supply enough fuel for it not to occur. -/
inductive ScrapeOutcome where
  | ok (urls : List String) (entries : List Entry)
  | sessionExpired (urls : List String) (msg : String)
  | fuelOut (urls : List String) (entries : List Entry)
  deriving DecidableEq, Repr

/-- The `max_pages is not None and page >= max_pages` test of line 448. -/
def maxReached (maxPages : Option Nat) (page : Nat) : Bool :=
  match maxPages with
  | some m => m ≤ page
  | none => false

/-- The fetch loop of `scrape_all` (lines 428-452), parametrized by the
page fetcher and the page extractor (the HTML-walking collaborators).
`urls` accumulates requested URLs in reverse. -/
def scrapeLoop (fetch : String → String) (extract : String → List Entry)
    (postsUrl : String) (maxPages : Option Nat) :
    Nat → Nat → List String → List Entry → ScrapeOutcome
  | 0, _, urls, acc => .fuelOut urls.reverse acc
  | fuel + 1, page, urls, acc =>
    if is_login_page (fetch (pageUrl postsUrl page)) then
      .sessionExpired (pageUrl postsUrl page :: urls).reverse (sessionExpiredMsg page)
    else if extract (fetch (pageUrl postsUrl page)) = [] then
      .ok (pageUrl postsUrl page :: urls).reverse acc
    else if maxReached maxPages page then
      .ok (pageUrl postsUrl page :: urls).reverse
        (acc ++ extract (fetch (pageUrl postsUrl page)))
    else
      scrapeLoop fetch extract postsUrl maxPages fuel (page + 1)
        (pageUrl postsUrl page :: urls)
        (acc ++ extract (fetch (pageUrl postsUrl page)))

/-- `scrape_all` (lines 423-463): run the loop from page 1 and
deduplicate the collected entries on normal termination. -/
def scrape_all (fetch : String → String) (extract : String → List Entry)
    (postsUrl : String) (maxPages : Option Nat) (fuel : Nat) : ScrapeOutcome :=
  match scrapeLoop fetch extract postsUrl maxPages fuel 1 [] [] with
  | .ok urls acc => .ok urls (dedupById acc)
  | r => r

/-- `root/YYYY/MM/YYYY-MM-DD.md` of lines 397-403 (posix separators). -/
def dayRelPath (y mo d : Nat) : String :=
  pad4 y ++ "/" ++ pad2 mo ++ "/" ++
    (pad4 y ++ "-" ++ pad2 mo ++ "-" ++ pad2 d ++ ".md")

/-- `format_entry_markdown` (lines 356-371). -/
def format_entry_markdown (e : Entry) (timeLabel : String) : String :=
  String.intercalate "\n"
    ((if e.title ≠ "" then ["## " ++ timeLabel ++ " - " ++ e.title]
      else ["## " ++ timeLabel])
     ++ [""]
     ++ ["- ID: `" ++ e.id ++ "`"]
     ++ (if e.location ≠ "" then ["- 地点: " ++ e.location] else [])
     ++ ["- 链接: " ++ e.source_url]
     ++ [""]
     ++ [if e.text ≠ "" then String.mk (stripCh e.text.data) else ""]
     ++ [""])

/-- The per-entry body of one day file, with `---` separators between
consecutive entries but not after the last (lines 408-411). -/
def dayFileBody : List (String × Entry) → String
  | [] => ""
  | [(hm, e)] => format_entry_markdown e hm
  | (hm, e) :: rest => format_entry_markdown e hm ++ "---\n\n" ++ dayFileBody rest

/-- One day file's full content (lines 405-411). -/
def dayFileContent (y mo d : Nat) (items : List (String × Entry)) : String :=
  "# " ++ pad4 y ++ "-" ++ pad2 mo ++ "-" ++ pad2 d ++ "\n\n"
    ++ "> 共 " ++ Nat.repr items.length ++ " 条日记\n\n"
    ++ dayFileBody items

/-- The files written by `write_split_markdown` (lines 374-415):
one `(path, content)` pair per resolved day, in sorted key order. -/
def write_split_markdown (entries : List Entry) (mdRoot : String) :
    List (String × String) :=
  (finalGroups entries).map (fun g =>
    (mdRoot ++ "/" ++ dayRelPath g.1.1 g.1.2.1 g.1.2.2,
     dayFileContent g.1.1 g.1.2.1 g.1.2.2 g.2))

/-- The paths of the written day files. -/
def mdPaths (entries : List Entry) (mdRoot : String) : List String :=
  (write_split_markdown entries mdRoot).map Prod.fst

/-- A path lies strictly inside the markdown root directory. -/
def underRoot (root p : String) : Bool :=
  startsWithCh (root ++ "/").data p.data

/-- The filesystem effect of `write_split_markdown` (lines 390-415) on
a directory modelled as a `(path, content)` association: `shutil.rmtree`
removes every file under the root, then the new day files are written. -/
def applyMarkdownExport (fs : List (String × String)) (mdRoot : String)
    (entries : List Entry) : List (String × String) :=
  fs.filter (fun kv => !(underRoot mdRoot kv.1)) ++ write_split_markdown entries mdRoot

/-- The output-relevant behaviour of `main`'s try block (lines 580-600):
a failing scrape writes nothing and reports the error; a successful
scrape with no entries writes nothing and reports the empty-result
error; otherwise the JSON and TXT files and (when enabled) the Markdown
tree are written.  Returns the written paths and the error message. -/
def mainExport (fetch : String → String) (extract : String → List Entry)
    (postsUrl : String) (maxPages : Option Nat) (fuel : Nat)
    (jsonPath txtPath mdRoot : String) (splitMd : Bool) :
    List String × Option String :=
  match scrape_all fetch extract postsUrl maxPages fuel with
  | .sessionExpired _ msg => ([], some ("导出失败：" ++ msg))
  | .fuelOut _ _ => ([], none)
  | .ok _ entries =>
    if entries = [] then
      ([], some "导出失败：没有抓到任何日记，请检查账号权限或目标用户")
    else
      (jsonPath :: txtPath :: (if splitMd then mdPaths entries mdRoot else []),
       none)

example : pySplitlines "a \r\n\nb".data = [['a', ' '], [], ['b']] := by decide
example : normalize_text "a \n\n\nb" = "a\n\nb" := by decide
example : normalize_text "\n\n  x  \n\n\n y\n\n" = "x\n\n y" := by decide
example : normalize_text "" = "" := by decide
example : splitOnNl "a\n\nb".data = [['a'], [], ['b']] := by decide

example : tier1Match "2026-03-05 08:30".data = some (2026, 3, 5, "08:30") := by decide
example : tier1Match "2026-3-05 08:30".data = none := by decide
example : tier1Match "".data = none := by decide
example : searchDate "3月5日2026".data = some (3, 5, 2026) := by decide
example : searchDate "x12月 31日  2025y".data = some (12, 31, 2025) := by decide
example : searchDate "123月5日2026".data = some (23, 5, 2026) := by decide
example : searchTime "08:30".data = some (8, 30) := by decide
example : searchTime "12:3".data = none := by decide
example : searchTime "1:23".data = some (1, 23) := by decide
example :
    parse_entry_datetime_parts
      { id := "a", date_label := "3月5日2026", datetime_iso := "",
        datetime_local := "", time_label := "8:30", title := "", text := "",
        location := "", source_url := "" } = some (2026, 3, 5, "08:30") := by decide

theorem dedupByIdGo_eq_firstOcc_aux (n : Nat) :
    ∀ (l : List Entry), l.length ≤ n → ∀ seen, dedupByIdGo seen l =
      firstOccurrences (l.filter (fun e => decide (e.id ∉ seen))) := by
  induction n with
  | zero =>
    intro l hl seen
    obtain rfl : l = [] := List.eq_nil_of_length_eq_zero (Nat.le_zero.mp hl)
    simp [dedupByIdGo, firstOccurrences]
  | succ n ih =>
    intro l hl seen
    cases l with
    | nil => simp [dedupByIdGo, firstOccurrences]
    | cons e rest =>
      by_cases hs : e.id ∈ seen
      · rw [show dedupByIdGo seen (e :: rest) = dedupByIdGo seen rest by
          simp [dedupByIdGo, hs]]
        rw [ih rest (Nat.le_of_succ_le_succ hl) seen]
        congr 1
        simp [hs]
      · rw [show dedupByIdGo seen (e :: rest)
            = e :: dedupByIdGo (e.id :: seen) rest by simp [dedupByIdGo, hs]]
        have hfe : (e :: rest).filter (fun x => decide (x.id ∉ seen))
            = e :: rest.filter (fun x => decide (x.id ∉ seen)) := by
          simp [hs]
        rw [hfe, firstOccurrences, List.filter_filter]
        rw [ih rest (Nat.le_of_succ_le_succ hl) (e.id :: seen)]
        have hfc : List.filter (fun x => decide (x.id ∉ e.id :: seen)) rest
            = List.filter (fun a => decide (a.id ≠ e.id) && decide (a.id ∉ seen)) rest := by
          apply List.filter_congr
          intro x _
          by_cases h1 : x.id = e.id <;> by_cases h2 : x.id ∈ seen <;>
            simp [h1, h2]
        rw [hfc]

theorem dedupByIdGo_sublist (l : List Entry) :
    ∀ seen, (dedupByIdGo seen l).Sublist l := by
  induction l with
  | nil => intro seen; simp [dedupByIdGo]
  | cons e rest ih =>
    intro seen
    by_cases hs : e.id ∈ seen
    · simp only [dedupByIdGo, if_pos hs]
      exact (ih seen).cons e
    · simp only [dedupByIdGo, if_neg hs]
      exact (ih (e.id :: seen)).cons₂ e

theorem dedupByIdGo_id_not_seen (l : List Entry) :
    ∀ seen i, i ∈ (dedupByIdGo seen l).map (fun e => e.id) → i ∉ seen := by
  induction l with
  | nil => intro seen i h; simp [dedupByIdGo] at h
  | cons e rest ih =>
    intro seen i h
    by_cases hs : e.id ∈ seen
    · rw [show dedupByIdGo seen (e :: rest) = dedupByIdGo seen rest by
        simp [dedupByIdGo, hs]] at h
      exact ih seen i h
    · rw [show dedupByIdGo seen (e :: rest)
          = e :: dedupByIdGo (e.id :: seen) rest by simp [dedupByIdGo, hs]] at h
      simp only [List.map_cons, List.mem_cons] at h
      rcases h with h | h
      · exact h ▸ hs
      · have := ih (e.id :: seen) i h
        intro hmem
        exact this (List.mem_cons_of_mem _ hmem)

theorem dedupByIdGo_nodup_ids (l : List Entry) :
    ∀ seen, ((dedupByIdGo seen l).map (fun e => e.id)).Nodup := by
  induction l with
  | nil => intro seen; simp [dedupByIdGo]
  | cons e rest ih =>
    intro seen
    by_cases hs : e.id ∈ seen
    · rw [show dedupByIdGo seen (e :: rest) = dedupByIdGo seen rest by
        simp [dedupByIdGo, hs]]
      exact ih seen
    · rw [show dedupByIdGo seen (e :: rest)
          = e :: dedupByIdGo (e.id :: seen) rest by simp [dedupByIdGo, hs]]
      simp only [List.map_cons, List.nodup_cons]
      refine ⟨fun hmem => ?_, ih (e.id :: seen)⟩
      exact dedupByIdGo_id_not_seen rest (e.id :: seen) e.id hmem
        (List.mem_cons_self _ _)

theorem dedupByIdGo_mem_ids (l : List Entry) :
    ∀ seen i, i ∈ l.map (fun e => e.id) → i ∉ seen →
      i ∈ (dedupByIdGo seen l).map (fun e => e.id) := by
  induction l with
  | nil => intro seen i h; simp at h
  | cons e rest ih =>
    intro seen i h hns
    simp only [List.map_cons, List.mem_cons] at h
    by_cases hs : e.id ∈ seen
    · rw [show dedupByIdGo seen (e :: rest) = dedupByIdGo seen rest by
        simp [dedupByIdGo, hs]]
      rcases h with rfl | h
      · exact absurd hs hns
      · exact ih seen i h hns
    · rw [show dedupByIdGo seen (e :: rest)
          = e :: dedupByIdGo (e.id :: seen) rest by simp [dedupByIdGo, hs]]
      simp only [List.map_cons, List.mem_cons]
      rcases h with rfl | h
      · exact Or.inl rfl
      · by_cases hie : i = e.id
        · exact Or.inl hie
        · exact Or.inr (ih (e.id :: seen) i h (by simp [hie, hns]))

/-- C1: after the fetch loop the aggregator deduplicates the
concatenated per-page extractions by `id`, keeping the first occurrence
in encounter order: the result is the first-occurrence subsequence of
the concatenation, and it contains each record id of the input exactly
once. -/
theorem dedupById_first_occurrence_exactly_once (pages : List (List Entry)) :
    dedupById pages.flatten = firstOccurrences pages.flatten
    ∧ (dedupById pages.flatten).Sublist pages.flatten
    ∧ ∀ i, i ∈ pages.flatten.map (fun e => e.id) →
        ((dedupById pages.flatten).map (fun e => e.id)).count i = 1 := by
  refine ⟨?_, dedupByIdGo_sublist _ [], ?_⟩
  · rw [dedupById,
      dedupByIdGo_eq_firstOcc_aux pages.flatten.length pages.flatten le_rfl [],
      show (fun (e : Entry) => decide (e.id ∉ ([] : List String))) = fun _ => true from
        by funext x; simp,
      List.filter_true]
  · intro i hi
    exact List.count_eq_one_of_mem (dedupByIdGo_nodup_ids _ [])
      (dedupByIdGo_mem_ids _ [] i hi (by simp))

/-- Witness for C1 at a concrete pair of pages overlapping on id `a2`:
the aggregated output contains `a2` exactly once. -/
theorem dedupById_first_occurrence_exactly_once_witness :
    ((dedupById
        ([[{ id := "a1", date_label := "", datetime_iso := "", datetime_local := "",
             time_label := "", title := "", text := "", location := "",
             source_url := "" },
           { id := "a2", date_label := "", datetime_iso := "", datetime_local := "",
             time_label := "", title := "", text := "", location := "",
             source_url := "" }],
          [{ id := "a2", date_label := "", datetime_iso := "", datetime_local := "",
             time_label := "", title := "x", text := "", location := "",
             source_url := "" }]] : List (List Entry)).flatten).map
        (fun e => e.id)).count "a2" = 1 :=
  (dedupById_first_occurrence_exactly_once
      [[{ id := "a1", date_label := "", datetime_iso := "", datetime_local := "",
          time_label := "", title := "", text := "", location := "",
          source_url := "" },
        { id := "a2", date_label := "", datetime_iso := "", datetime_local := "",
          time_label := "", title := "", text := "", location := "",
          source_url := "" }],
       [{ id := "a2", date_label := "", datetime_iso := "", datetime_local := "",
          time_label := "", title := "x", text := "", location := "",
          source_url := "" }]]).2.2 "a2" (by decide)

theorem insertBehind_perm (le : α → α → Bool) (x : α) :
    ∀ l : List α, (insertBehind le x l).Perm (x :: l)
  | [] => by simp [insertBehind]
  | y :: ys => by
    unfold insertBehind
    by_cases h : le y x = true
    · rw [if_pos h]
      exact ((insertBehind_perm le x ys).cons y).trans (List.Perm.swap x y ys)
    · rw [if_neg h]

theorem stableSortGo_perm (le : α → α → Bool) :
    ∀ (l acc : List α),
      (l.foldl (fun acc x => insertBehind le x acc) acc).Perm (acc ++ l)
  | [], acc => by simp
  | x :: rest, acc => by
    simp only [List.foldl_cons]
    refine (stableSortGo_perm le rest _).trans ?_
    refine (((insertBehind_perm le x acc).append_right rest)).trans ?_
    exact List.perm_middle.symm

theorem stableSort_perm (le : α → α → Bool) (l : List α) :
    (stableSort le l).Perm l := by
  simpa using stableSortGo_perm le l []

theorem length_stableSort (le : α → α → Bool) (l : List α) :
    (stableSort le l).length = l.length :=
  (stableSort_perm le l).length_eq

theorem pairwise_insertBehind (le : α → α → Bool)
    (htrans : ∀ a b c, le a b = true → le b c = true → le a c = true)
    (htot : ∀ a b, le a b = true ∨ le b a = true) (x : α) :
    ∀ l : List α, l.Pairwise (fun a b => le a b = true) →
      (insertBehind le x l).Pairwise (fun a b => le a b = true)
  | [], _ => by simp [insertBehind]
  | y :: ys, hp => by
    rw [List.pairwise_cons] at hp
    obtain ⟨hy, hys⟩ := hp
    unfold insertBehind
    by_cases h : le y x = true
    · rw [if_pos h, List.pairwise_cons]
      refine ⟨fun z hz => ?_, pairwise_insertBehind le htrans htot x ys hys⟩
      rcases List.mem_cons.mp ((insertBehind_perm le x ys).mem_iff.mp hz) with hz2 | hz2
      · exact hz2 ▸ h
      · exact hy z hz2
    · rw [if_neg h, List.pairwise_cons]
      have hxy : le x y = true := (htot x y).resolve_right fun hc => h hc
      refine ⟨fun z hz => ?_, List.pairwise_cons.mpr ⟨hy, hys⟩⟩
      rcases List.mem_cons.mp hz with rfl | hz'
      · exact hxy
      · exact htrans x y z hxy (hy z hz')

theorem pairwise_stableSortGo (le : α → α → Bool)
    (htrans : ∀ a b c, le a b = true → le b c = true → le a c = true)
    (htot : ∀ a b, le a b = true ∨ le b a = true) :
    ∀ (l acc : List α), acc.Pairwise (fun a b => le a b = true) →
      (l.foldl (fun acc x => insertBehind le x acc) acc).Pairwise
        (fun a b => le a b = true)
  | [], _, h => h
  | x :: rest, acc, h => by
    simp only [List.foldl_cons]
    exact pairwise_stableSortGo le htrans htot rest _
      (pairwise_insertBehind le htrans htot x acc h)

theorem pairwise_stableSort (le : α → α → Bool)
    (htrans : ∀ a b c, le a b = true → le b c = true → le a c = true)
    (htot : ∀ a b, le a b = true ∨ le b a = true) (l : List α) :
    (stableSort le l).Pairwise (fun a b => le a b = true) :=
  pairwise_stableSortGo le htrans htot l [] (by simp)

theorem filter_insertBehind (le : α → α → Bool) (p : α → Bool)
    (htrans : ∀ a b c, le a b = true → le b c = true → le a c = true)
    (htie : ∀ a b, p a = true → p b = true → le a b = true) (x : α) :
    ∀ l : List α, l.Pairwise (fun a b => le a b = true) →
      (insertBehind le x l).filter p
        = l.filter p ++ (if p x then [x] else [])
  | [], _ => by cases hpx : p x <;> simp [insertBehind, List.filter, hpx]
  | y :: ys, hp => by
    rw [List.pairwise_cons] at hp
    obtain ⟨hy, hys⟩ := hp
    unfold insertBehind
    by_cases h : le y x = true
    · rw [if_pos h]
      by_cases hpy : p y = true
      · rw [List.filter_cons_of_pos hpy, List.filter_cons_of_pos hpy,
          filter_insertBehind le p htrans htie x ys hys]
        simp
      · rw [List.filter_cons_of_neg (by simp [hpy]),
          List.filter_cons_of_neg (by simp [hpy]),
          filter_insertBehind le p htrans htie x ys hys]
    · rw [if_neg h]
      by_cases hpx : p x = true
      · have hnone : ∀ z ∈ y :: ys, ¬ p z = true := by
          intro z hz hpz
          rcases List.mem_cons.mp hz with rfl | hz'
          · exact h (htie z x hpz hpx)
          · exact h (htrans y z x (hy z hz') (htie z x hpz hpx))
        have hnil : (y :: ys).filter p = [] := by
          apply List.filter_eq_nil_iff.mpr
          intro z hz
          simpa using hnone z hz
        rw [List.filter_cons_of_pos hpx, hnil, if_pos hpx]
        simp [hnil]
      · rw [List.filter_cons_of_neg (by simp [hpx]), if_neg hpx]
        simp
  termination_by l => l.length

theorem filter_stableSortGo (le : α → α → Bool) (p : α → Bool)
    (htrans : ∀ a b c, le a b = true → le b c = true → le a c = true)
    (htot : ∀ a b, le a b = true ∨ le b a = true)
    (htie : ∀ a b, p a = true → p b = true → le a b = true) :
    ∀ (l acc : List α), acc.Pairwise (fun a b => le a b = true) →
      (l.foldl (fun acc x => insertBehind le x acc) acc).filter p
        = acc.filter p ++ l.filter p
  | [], acc, _ => by simp
  | x :: rest, acc, h => by
    simp only [List.foldl_cons]
    rw [filter_stableSortGo le p htrans htot htie rest _
      (pairwise_insertBehind le htrans htot x acc h)]
    rw [filter_insertBehind le p htrans htie x acc h]
    by_cases hpx : p x = true
    · rw [if_pos hpx, List.filter_cons_of_pos hpx]
      simp
    · rw [if_neg hpx, List.filter_cons_of_neg (by simp [hpx])]
      simp

theorem filter_stableSort (le : α → α → Bool) (p : α → Bool)
    (htrans : ∀ a b c, le a b = true → le b c = true → le a c = true)
    (htot : ∀ a b, le a b = true ∨ le b a = true)
    (htie : ∀ a b, p a = true → p b = true → le a b = true) (l : List α) :
    (stableSort le l).filter p = l.filter p := by
  have := filter_stableSortGo le p htrans htot htie l [] (by simp)
  simpa [stableSort] using this

theorem strLeCh_iff : ∀ s t : List Char, strLeCh s t = true ↔ ¬ List.lt t s
  | [], t => by
    constructor
    · intro _ h
      cases h
    · intro _
      rfl
  | a :: as, [] => by
    constructor
    · intro h
      simp [strLeCh] at h
    · intro h
      exact absurd (List.lt.nil a as) h
  | a :: as, b :: bs => by
    by_cases hab : a = b
    · subst hab
      have hirr : ¬ a < a := lt_irrefl a
      rw [show strLeCh (a :: as) (a :: bs) = strLeCh as bs from by
        simp [strLeCh]]
      rw [strLeCh_iff as bs]
      constructor
      · intro h hl
        cases hl with
        | head _ _ hlt => exact hirr hlt
        | tail _ _ htl => exact h htl
      · intro h hl
        exact h (List.lt.tail hirr hirr hl)
    · rw [show strLeCh (a :: as) (b :: bs) = decide (a < b) from by
        simp [strLeCh, hab]]
      by_cases hlt : a < b
      · constructor
        · intro _ hl
          cases hl with
          | head _ _ h2 => exact lt_asymm h2 hlt
          | tail h1 h2 _ => exact h2 hlt
        · intro _
          exact decide_eq_true hlt
      · have hba : b < a := by
          rcases lt_trichotomy a b with h | h | h
          · exact absurd h hlt
          · exact absurd h hab
          · exact h
        constructor
        · intro h
          exact absurd (of_decide_eq_true h) hlt
        · intro h
          exact absurd (List.lt.head bs as hba) h

theorem strLe_iff_le (s t : String) : strLeCh s.data t.data = true ↔ s ≤ t := by
  rw [strLeCh_iff, String.le_iff_toList_le, ← not_lt]
  exact not_congr (List.lt_iff_lex_lt t.data s.data)

theorem hmLe_iff (a b : String × Entry) : hmLe a b = true ↔ a.1 ≤ b.1 :=
  strLe_iff_le a.1 b.1

theorem hmLe_trans (a b c : String × Entry) :
    hmLe a b = true → hmLe b c = true → hmLe a c = true := by
  rw [hmLe_iff, hmLe_iff, hmLe_iff]
  exact le_trans

theorem hmLe_total (a b : String × Entry) :
    hmLe a b = true ∨ hmLe b a = true := by
  rw [hmLe_iff, hmLe_iff]
  exact le_total a.1 b.1

theorem sum_map_len_addToGroups (k : Nat × Nat × Nat) (v : String × Entry) :
    ∀ gs, ((addToGroups gs k v).map (fun g => g.2.length)).sum
      = ((gs.map (fun g => g.2.length)).sum) + 1
  | [] => by simp [addToGroups]
  | (k', vs) :: rest => by
    unfold addToGroups
    by_cases h : k' = k
    · rw [if_pos h]
      simp [Nat.add_assoc, Nat.add_comm, Nat.add_left_comm]
    · rw [if_neg h]
      simp only [List.map_cons, List.sum_cons, sum_map_len_addToGroups k v rest]
      omega

theorem sum_buildGroupsGo (l : List Entry) :
    ∀ gs : List ((Nat × Nat × Nat) × List (String × Entry)), (((l.foldl
        (fun gs e =>
          match parse_entry_datetime_parts e with
          | none => gs
          | some (y, mo, d, hm) => addToGroups gs (y, mo, d) (hm, e)) gs)).map
        (fun g => g.2.length)).sum
      = ((gs.map (fun g => g.2.length)).sum)
        + l.countP (fun e => (parse_entry_datetime_parts e).isSome) := by
  induction l with
  | nil => intro gs; simp
  | cons e rest ih =>
    intro gs
    simp only [List.foldl_cons, List.countP_cons]
    cases hparse : parse_entry_datetime_parts e with
    | none =>
      rw [ih gs]
      simp [hparse]
    | some r =>
      obtain ⟨y, mo, d, hm⟩ := r
      rw [ih (addToGroups gs (y, mo, d) (hm, e))]
      rw [sum_map_len_addToGroups (y, mo, d) (hm, e) gs]
      simp [hparse]
      omega

/-- C3: records with unresolved dates are excluded from the Markdown
partition but kept in the JSON output: the per-day entry counts across
all Markdown files sum to the number of resolvable records, while the
JSON array has one object per record. -/
theorem markdown_total_vs_json_length (entries : List Entry) :
    ((finalGroups entries).map (fun g => g.2.length)).sum
      = entries.countP (fun e => (parse_entry_datetime_parts e).isSome)
    ∧ (jsonExport entries).length = entries.length := by
  constructor
  · unfold finalGroups
    rw [List.map_map]
    have h1 : ((stableSort keyLe (buildGroups entries)).map
        ((fun g => g.2.length) ∘ fun g => (g.1, stableSort hmLe g.2)))
        = ((stableSort keyLe (buildGroups entries)).map (fun g => g.2.length)) := by
      apply List.map_congr_left
      intro g _
      simp [length_stableSort]
    rw [h1]
    rw [((stableSort_perm keyLe (buildGroups entries)).map
      (fun g => g.2.length)).sum_eq]
    unfold buildGroups
    simpa using sum_buildGroupsGo entries []
  · simp [jsonExport]

/-- C6: within a day file, entries are in ascending `hm` order, and
entries with equal `hm` keep their encounter order: filtering the day's
sorted items to a fixed `hm` gives exactly the filtered original group,
in order. -/
theorem day_file_sorted_and_stable (entries : List Entry)
    (k : Nat × Nat × Nat) (items : List (String × Entry))
    (hmem : (k, items) ∈ finalGroups entries) :
    items.Pairwise (fun a b => a.1 ≤ b.1)
    ∧ ∃ raw, (k, raw) ∈ buildGroups entries ∧
        ∀ h : String, items.filter (fun x => x.1 == h)
          = raw.filter (fun x => x.1 == h) := by
  unfold finalGroups at hmem
  obtain ⟨g, hg, hfg⟩ := List.mem_map.mp hmem
  obtain ⟨hk, hitems⟩ : g.1 = k ∧ stableSort hmLe g.2 = items := by
    have h1 := congrArg Prod.fst hfg
    have h2 := congrArg Prod.snd hfg
    exact ⟨h1, h2⟩
  have hgraw : (k, g.2) ∈ buildGroups entries := by
    have := (stableSort_perm keyLe (buildGroups entries)).mem_iff.mp hg
    rwa [show g = (k, g.2) from Prod.ext hk rfl] at this
  refine ⟨?_, g.2, hgraw, ?_⟩
  · rw [← hitems]
    have := pairwise_stableSort hmLe hmLe_trans hmLe_total g.2
    exact this.imp fun {a b} hab => (hmLe_iff a b).mp hab
  · intro h
    rw [← hitems]
    apply filter_stableSort hmLe (fun x => x.1 == h) hmLe_trans hmLe_total
    intro a b ha hb
    have ha2 : a.1 = h := by simpa using ha
    have hb2 : b.1 = h := by simpa using hb
    rw [hmLe_iff, ha2, hb2]

/-- Witness for C6 at two same-day records arriving out of `hm` order:
the day file holds them sorted `08:30` before `09:00`, stably. -/
theorem day_file_sorted_and_stable_witness :
    ([("08:30",
       { id := "a1", date_label := "3月5日2026", datetime_iso := "",
         datetime_local := "", time_label := "8:30", title := "", text := "",
         location := "", source_url := "" }),
      ("09:00",
       { id := "a2", date_label := "3月5日2026", datetime_iso := "",
         datetime_local := "", time_label := "9:00", title := "", text := "",
         location := "", source_url := "" })] :
      List (String × Entry)).Pairwise (fun a b => a.1 ≤ b.1)
    ∧ ∃ raw,
        ((2026, 3, 5), raw) ∈ buildGroups
          [{ id := "a2", date_label := "3月5日2026", datetime_iso := "",
             datetime_local := "", time_label := "9:00", title := "", text := "",
             location := "", source_url := "" },
           { id := "a1", date_label := "3月5日2026", datetime_iso := "",
             datetime_local := "", time_label := "8:30", title := "", text := "",
             location := "", source_url := "" }] ∧
        ∀ h : String,
          ([("08:30",
             { id := "a1", date_label := "3月5日2026", datetime_iso := "",
               datetime_local := "", time_label := "8:30", title := "",
               text := "", location := "", source_url := "" }),
            ("09:00",
             { id := "a2", date_label := "3月5日2026", datetime_iso := "",
               datetime_local := "", time_label := "9:00", title := "",
               text := "", location := "", source_url := "" })] :
            List (String × Entry)).filter (fun x => x.1 == h)
            = raw.filter (fun x => x.1 == h) :=
  day_file_sorted_and_stable
    [{ id := "a2", date_label := "3月5日2026", datetime_iso := "",
       datetime_local := "", time_label := "9:00", title := "", text := "",
       location := "", source_url := "" },
     { id := "a1", date_label := "3月5日2026", datetime_iso := "",
       datetime_local := "", time_label := "8:30", title := "", text := "",
       location := "", source_url := "" }]
    (2026, 3, 5)
    [("08:30",
      { id := "a1", date_label := "3月5日2026", datetime_iso := "",
        datetime_local := "", time_label := "8:30", title := "", text := "",
        location := "", source_url := "" }),
     ("09:00",
      { id := "a2", date_label := "3月5日2026", datetime_iso := "",
        datetime_local := "", time_label := "9:00", title := "", text := "",
        location := "", source_url := "" })]
    (by decide)

/-- C2: date resolution follows the two-tier fallback exactly as the
spec words it — tier 1 (strict `YYYY-MM-DD HH:MM` match on
`datetime_local`) takes precedence, tier 2 combines `date_label` and
`time_label` patterns with zero-padded hour and minute, and the record
is unresolved when neither tier matches. -/
theorem parse_entry_datetime_parts_eq_spec (e : Entry) :
    parse_entry_datetime_parts e = resolveTwoTierSpec e := by
  unfold parse_entry_datetime_parts resolveTwoTierSpec
  by_cases h : e.datetime_local = ""
  · rw [if_pos h, h]
    rfl
  · rw [if_neg h]

/-- C10: a non-empty `datetime_local` that fails the strict tier-1
pattern does not abort resolution — tier 2 is still attempted, and
succeeds whenever both label patterns match. -/
theorem tier2_attempted_after_tier1_failure (e : Entry)
    (h1 : e.datetime_local ≠ "")
    (h2 : tier1Match e.datetime_local.data = none)
    (mo d y hh mm : Nat)
    (hd : searchDate e.date_label.data = some (mo, d, y))
    (ht : searchTime e.time_label.data = some (hh, mm)) :
    parse_entry_datetime_parts e = some (y, mo, d, hmOfParts hh mm) := by
  unfold parse_entry_datetime_parts
  rw [if_neg h1, h2, hd, ht]

/-- Witness for C10: `datetime_local` is non-empty but malformed, and
the record still resolves through tier 2. -/
theorem tier2_attempted_after_tier1_failure_witness :
    parse_entry_datetime_parts
      { id := "a", date_label := "3月5日2026", datetime_iso := "",
        datetime_local := "2026/03/05 08:30", time_label := "08:30",
        title := "", text := "", location := "", source_url := "" }
      = some (2026, 3, 5, hmOfParts 8 30) :=
  tier2_attempted_after_tier1_failure
    { id := "a", date_label := "3月5日2026", datetime_iso := "",
      datetime_local := "2026/03/05 08:30", time_label := "08:30",
      title := "", text := "", location := "", source_url := "" }
    (by decide) (by decide) 3 5 2026 8 30 (by decide) (by decide)


theorem dropWhile_self_idem (p : Char → Bool) :
    ∀ l : List Char, (l.dropWhile p).dropWhile p = l.dropWhile p
  | [] => rfl
  | c :: l => by
    by_cases h : p c = true
    · rw [List.dropWhile_cons_of_pos h]
      exact dropWhile_self_idem p l
    · rw [List.dropWhile_cons_of_neg h, List.dropWhile_cons_of_neg h]

theorem rstripCh_idem (l : List Char) : rstripCh (rstripCh l) = rstripCh l := by
  unfold rstripCh
  rw [List.reverse_reverse, dropWhile_self_idem]

theorem mem_of_mem_rstripCh {c : Char} {l : List Char} (h : c ∈ rstripCh l) :
    c ∈ l := by
  unfold rstripCh at h
  rw [List.mem_reverse] at h
  have := (List.dropWhile_sublist isSpace).subset h
  rwa [List.mem_reverse] at this

/-- A list has no trailing whitespace. -/
def noTrailWs (l : List Char) : Prop :=
  ∀ c, l.getLast? = some c → isSpace c = false

theorem head_dropWhile_not (p : Char → Bool) :
    ∀ (l : List Char) (c : Char), (l.dropWhile p).head? = some c → p c = false
  | [], c => by intro h; simp [List.dropWhile] at h
  | a :: l, c => by
    intro h
    by_cases hp : p a = true
    · rw [List.dropWhile_cons_of_pos hp] at h
      exact head_dropWhile_not p l c h
    · rw [List.dropWhile_cons_of_neg hp] at h
      simp only [List.head?_cons, Option.some.injEq] at h
      subst h
      exact Bool.eq_false_iff.mpr hp

theorem noTrailWs_rstripCh (l : List Char) : noTrailWs (rstripCh l) := by
  intro c hc
  unfold rstripCh at hc
  rw [List.getLast?_reverse] at hc
  exact head_dropWhile_not isSpace l.reverse c hc

theorem dropWhile_eq_self_of_head (p : Char → Bool) (l : List Char)
    (h : ∀ c, l.head? = some c → p c = false) : l.dropWhile p = l := by
  cases l with
  | nil => rfl
  | cons a l =>
    have := h a rfl
    rw [List.dropWhile_cons_of_neg (by simp [this])]

theorem rstripCh_eq_self (l : List Char) (h : noTrailWs l) : rstripCh l = l := by
  unfold rstripCh
  rw [dropWhile_eq_self_of_head isSpace l.reverse
    (fun c hc => h c (by rwa [List.head?_reverse] at hc))]
  exact List.reverse_reverse l

theorem noTrailWs_of_rstripCh_eq_self (l : List Char) (h : rstripCh l = l) :
    noTrailWs l := by
  rw [← h]
  exact noTrailWs_rstripCh l

theorem rstripCh_eq_nil_of_all_ws (l : List Char)
    (h : ∀ c ∈ l, isSpace c = true) : rstripCh l = [] := by
  unfold rstripCh
  rw [List.dropWhile_eq_nil_iff.mpr fun c hc => h c (List.mem_reverse.mp hc)]
  rfl

theorem eq_nil_of_rstripped_all_ws (l : List Char) (hr : rstripCh l = l)
    (hws : l.dropWhile isSpace = []) : l = [] := by
  have hall : ∀ c ∈ l, isSpace c = true := List.dropWhile_eq_nil_iff.mp hws
  rw [← hr]
  exact rstripCh_eq_nil_of_all_ws l hall

theorem noTrailWs_dropWhile (p : Char → Bool) (l : List Char)
    (h : noTrailWs l) : noTrailWs (l.dropWhile p) := by
  intro c hc
  have hne : l.dropWhile p ≠ [] := by
    intro hnil
    rw [hnil] at hc
    simp at hc
  obtain ⟨t, ht⟩ := List.dropWhile_suffix p (l := l)
  apply h c
  rw [← ht, List.getLast?_append_of_ne_nil t hne]
  exact hc

theorem rstripCh_dropWhile_eq_self (p : Char → Bool) (l : List Char)
    (h : rstripCh l = l) : rstripCh (l.dropWhile p) = l.dropWhile p :=
  rstripCh_eq_self _ (noTrailWs_dropWhile p l (noTrailWs_of_rstripCh_eq_self l h))



theorem pySplitlinesGo_nl_free :
    ∀ (n : Nat) (s cur : List Char), s.length ≤ n → ('\n' ∉ cur) →
      ∀ l ∈ pySplitlinesGo cur s, '\n' ∉ l := by
  intro n
  induction n with
  | zero =>
    intro s cur hlen hcur l hl
    obtain rfl : s = [] := List.eq_nil_of_length_eq_zero (Nat.le_zero.mp hlen)
    unfold pySplitlinesGo at hl
    by_cases h : cur = []
    · simp [h] at hl
    · rw [if_neg h] at hl
      simp only [List.mem_singleton] at hl
      subst hl
      simpa using hcur
  | succ n ih =>
    intro s cur hlen hcur l hl
    cases s with
    | nil =>
      unfold pySplitlinesGo at hl
      by_cases h : cur = []
      · simp [h] at hl
      · rw [if_neg h] at hl
        simp only [List.mem_singleton] at hl
        subst hl
        simpa using hcur
    | cons c rest =>
      unfold pySplitlinesGo at hl
      split at hl
      · rename_i hbr
        have hcn : c ≠ '\n' := by
          intro hc; subst hc; simp [isLineBreakCh] at hbr
        exact ih rest (c :: cur) (Nat.le_of_succ_le_succ hlen)
          (by simp [hcur, Ne.symm hcn]) l hl
      · split at hl
        · simp only [List.mem_singleton] at hl
          subst hl
          simpa using hcur
        · rename_i c2 rest2
          split at hl
          · rcases List.mem_cons.mp hl with rfl | hl2
            · simpa using hcur
            · exact ih rest2 [] (by simp at hlen ⊢; omega) (by simp) l hl2
          · rcases List.mem_cons.mp hl with rfl | hl2
            · simpa using hcur
            · exact ih (c2 :: rest2) [] (by simpa using Nat.le_of_succ_le_succ hlen)
                (by simp) l hl2

theorem pySplitlines_nl_free (s : List Char) :
    ∀ l ∈ pySplitlines s, '\n' ∉ l :=
  pySplitlinesGo_nl_free s.length s [] le_rfl (by simp)


theorem mem_collapseBlankRuns :
    ∀ (lines : List (List Char)) (b : Bool) (l : List Char),
      l ∈ collapseBlankRuns b lines → l = [] ∨ l ∈ lines := by
  intro lines
  induction lines with
  | nil => intro b l hl; simp [collapseBlankRuns] at hl
  | cons ln rest ih =>
    intro b l hl
    unfold collapseBlankRuns at hl
    by_cases hln : ln = []
    · rw [if_pos hln] at hl
      by_cases hb : b = true
      · rw [if_pos hb] at hl
        rcases ih true l hl with h | h
        · exact Or.inl h
        · exact Or.inr (List.mem_cons_of_mem _ h)
      · rw [if_neg hb] at hl
        rcases List.mem_cons.mp hl with rfl | hl2
        · exact Or.inl rfl
        · rcases ih true l hl2 with h | h
          · exact Or.inl h
          · exact Or.inr (List.mem_cons_of_mem _ h)
    · rw [if_neg hln] at hl
      rcases List.mem_cons.mp hl with rfl | hl2
      · exact Or.inr (List.mem_cons_self _ _)
      · rcases ih false l hl2 with h | h
        · exact Or.inl h
        · exact Or.inr (List.mem_cons_of_mem _ h)

theorem collapseBlankRuns_true_head :
    ∀ (lines : List (List Char)) (l : List Char),
      (collapseBlankRuns true lines).head? = some l → l ≠ [] := by
  intro lines
  induction lines with
  | nil => intro l hl; simp [collapseBlankRuns] at hl
  | cons ln rest ih =>
    intro l hl
    unfold collapseBlankRuns at hl
    by_cases hln : ln = []
    · rw [if_pos hln, if_pos rfl] at hl
      exact ih l hl
    · rw [if_neg hln] at hl
      simp only [List.head?_cons, Option.some.injEq] at hl
      subst hl
      exact hln

theorem chain_collapseBlankRuns :
    ∀ (lines : List (List Char)) (b : Bool),
      List.Chain' (fun a b => a ≠ [] ∨ b ≠ []) (collapseBlankRuns b lines) := by
  intro lines
  induction lines with
  | nil => intro b; simp [collapseBlankRuns]
  | cons ln rest ih =>
    intro b
    unfold collapseBlankRuns
    by_cases hln : ln = []
    · rw [if_pos hln]
      by_cases hb : b = true
      · rw [if_pos hb]
        exact ih true
      · rw [if_neg hb]
        rw [List.chain'_cons']
        refine ⟨fun y hy => Or.inr (collapseBlankRuns_true_head rest y hy), ih true⟩
    · rw [if_neg hln]
      rw [List.chain'_cons']
      exact ⟨fun y _ => Or.inl hln, ih false⟩

theorem joinNl_cons_of_ne_nil (l : List Char) (ls : List (List Char))
    (h : ls ≠ []) : joinNl (l :: ls) = l ++ '\n' :: joinNl ls := by
  cases ls with
  | nil => exact absurd rfl h
  | cons l2 ls2 => rfl

theorem splitOnNl_ne_nil : ∀ l : List Char, splitOnNl l ≠ []
  | [] => by simp [splitOnNl]
  | c :: rest => by
    unfold splitOnNl
    by_cases h : c = '\n'
    · simp [h]
    · rw [if_neg h]
      cases hs : splitOnNl rest with
      | nil => simp
      | cons a as => simp

theorem splitOnNl_nl_free_self : ∀ l : List Char, '\n' ∉ l → splitOnNl l = [l]
  | [] => fun _ => rfl
  | c :: rest => by
    intro h
    have hc : c ≠ '\n' := fun hc => h (hc ▸ List.mem_cons_self _ _)
    have hre : '\n' ∉ rest := fun hr => h (List.mem_cons_of_mem _ hr)
    unfold splitOnNl
    rw [if_neg hc, splitOnNl_nl_free_self rest hre]

theorem splitOnNl_append_nl (l r : List Char) (h : '\n' ∉ l) :
    splitOnNl (l ++ '\n' :: r) = l :: splitOnNl r := by
  induction l with
  | nil =>
    show splitOnNl ('\n' :: r) = [] :: splitOnNl r
    rw [splitOnNl]
    rw [if_pos rfl]
  | cons c l2 ih =>
    have hc : c ≠ '\n' := fun hc => h (hc ▸ List.mem_cons_self _ _)
    have hl2 : '\n' ∉ l2 := fun hr => h (List.mem_cons_of_mem _ hr)
    show splitOnNl (c :: (l2 ++ '\n' :: r)) = (c :: l2) :: splitOnNl r
    rw [splitOnNl]
    rw [if_neg hc, ih hl2]

theorem splitOnNl_joinNl :
    ∀ L : List (List Char), L ≠ [] → (∀ l ∈ L, '\n' ∉ l) →
      splitOnNl (joinNl L) = L
  | [], h, _ => absurd rfl h
  | [l], _, hfree => by
    rw [show joinNl [l] = l from rfl]
    exact splitOnNl_nl_free_self l (hfree l (List.mem_singleton_self l))
  | l :: l2 :: ls, _, hfree => by
    rw [joinNl_cons_of_ne_nil l (l2 :: ls) (by simp)]
    rw [splitOnNl_append_nl l (joinNl (l2 :: ls)) (hfree l (List.mem_cons_self _ _))]
    rw [splitOnNl_joinNl (l2 :: ls) (by simp) (fun x hx => hfree x (List.mem_cons_of_mem _ hx))]


theorem head?_append_of_ne_nil (l l2 : List Char) (h : l ≠ []) :
    (l ++ l2).head? = l.head? := by
  cases l with
  | nil => exact absurd rfl h
  | cons a t => rfl

theorem headNe_append_of_ne_nil (L M : List (List Char)) (h : L ≠ []) :
    (L ++ M).head? = L.head? := by
  cases L with
  | nil => exact absurd rfl h
  | cons a t => rfl

theorem joinNl_concat_ne_nil :
    ∀ (init : List (List Char)) (z : List Char), z ≠ [] →
      joinNl (init ++ [z]) ≠ []
  | [], z, hz => by simpa [joinNl] using hz
  | a :: init2, z, hz => by
    rw [List.cons_append,
      joinNl_cons_of_ne_nil a (init2 ++ [z]) (by simp)]
    simp

theorem getLast?_joinNl_concat :
    ∀ (init : List (List Char)) (z : List Char), z ≠ [] →
      (joinNl (init ++ [z])).getLast? = z.getLast?
  | [], z, _ => by simp [joinNl]
  | a :: init2, z, hz => by
    rw [List.cons_append,
      joinNl_cons_of_ne_nil a (init2 ++ [z]) (by simp)]
    rw [List.getLast?_append_of_ne_nil a (by simp)]
    rw [show ('\n' :: joinNl (init2 ++ [z]))
        = ['\n'] ++ joinNl (init2 ++ [z]) from rfl]
    rw [List.getLast?_append_of_ne_nil ['\n'] (joinNl_concat_ne_nil init2 z hz)]
    exact getLast?_joinNl_concat init2 z hz

theorem joinNl_concat_nil :
    ∀ init : List (List Char), init ≠ [] →
      joinNl (init ++ [([] : List Char)]) = joinNl init ++ ['\n']
  | [], h => absurd rfl h
  | [a], _ => rfl
  | a :: b :: init2, _ => by
    rw [List.cons_append, joinNl_cons_of_ne_nil a ((b :: init2) ++ [[]]) (by simp),
      joinNl_cons_of_ne_nil a (b :: init2) (by simp),
      joinNl_concat_nil (b :: init2) (by simp)]
    simp

theorem rstripCh_append_ws_single (x : List Char) (c : Char)
    (hc : isSpace c = true) : rstripCh (x ++ [c]) = rstripCh x := by
  unfold rstripCh
  rw [List.reverse_append]
  rw [show ([c] : List Char).reverse = [c] from rfl]
  rw [show ([c] : List Char) ++ x.reverse = c :: x.reverse from rfl]
  rw [List.dropWhile_cons_of_pos hc]

theorem noTrailWs_joinNl_concat (init : List (List Char)) (z : List Char)
    (hz : z ≠ []) (hrz : rstripCh z = z) :
    noTrailWs (joinNl (init ++ [z])) := by
  intro c hc
  rw [getLast?_joinNl_concat init z hz] at hc
  exact noTrailWs_of_rstripCh_eq_self z hrz c hc

theorem lstrip_joinNl :
    ∀ (n : Nat) (L : List (List Char)), L.length ≤ n →
      (∀ l ∈ L, rstripCh l = l) → (∀ l ∈ L, '\n' ∉ l) →
      List.Chain' (fun a b => a ≠ [] ∨ b ≠ []) L →
      ∃ L1 : List (List Char),
        (joinNl L).dropWhile isSpace = joinNl L1
        ∧ (∀ l ∈ L1, rstripCh l = l) ∧ (∀ l ∈ L1, '\n' ∉ l)
        ∧ List.Chain' (fun a b => a ≠ [] ∨ b ≠ []) L1
        ∧ (∀ h, L1.head? = some h → h ≠ []) := by
  intro n
  induction n with
  | zero =>
    intro L hlen _ _ _
    obtain rfl : L = [] := List.eq_nil_of_length_eq_zero (Nat.le_zero.mp hlen)
    exact ⟨[], by simp [joinNl], by simp, by simp, by simp, by simp⟩
  | succ n ih =>
    intro L hlen hr hnl hch
    cases L with
    | nil => exact ⟨[], by simp [joinNl], by simp, by simp, by simp, by simp⟩
    | cons l ls =>
      by_cases hld : l.dropWhile isSpace = []
      · have hleq : l = [] :=
          eq_nil_of_rstripped_all_ws l (hr l (List.mem_cons_self _ _)) hld
        subst hleq
        cases ls with
        | nil => exact ⟨[], by simp [joinNl], by simp, by simp, by simp, by simp⟩
        | cons l2 ls2 =>
          obtain ⟨L1, heq, hr1, hnl1, hch1, hhd1⟩ := ih (l2 :: ls2)
            (by simpa using Nat.le_of_succ_le_succ hlen)
            (fun x hx => hr x (List.mem_cons_of_mem _ hx))
            (fun x hx => hnl x (List.mem_cons_of_mem _ hx))
            ((List.chain'_cons'.mp hch).2)
          refine ⟨L1, ?_, hr1, hnl1, hch1, hhd1⟩
          rw [joinNl_cons_of_ne_nil [] (l2 :: ls2) (by simp), List.nil_append,
            List.dropWhile_cons_of_pos (by decide)]
          exact heq
      · refine ⟨l.dropWhile isSpace :: ls, ?_, ?_, ?_, ?_, ?_⟩
        · cases ls with
          | nil =>
            rw [show joinNl [l] = l from rfl,
              show joinNl [l.dropWhile isSpace] = l.dropWhile isSpace from rfl]
          | cons l2 ls2 =>
            rw [joinNl_cons_of_ne_nil l (l2 :: ls2) (by simp),
              joinNl_cons_of_ne_nil (l.dropWhile isSpace) (l2 :: ls2) (by simp)]
            rw [List.dropWhile_append]
            simp only [List.isEmpty_iff, hld, if_false]
        · intro x hx
          rcases List.mem_cons.mp hx with rfl | hx2
          · exact rstripCh_dropWhile_eq_self isSpace l (hr l (List.mem_cons_self _ _))
          · exact hr x (List.mem_cons_of_mem _ hx2)
        · intro x hx
          rcases List.mem_cons.mp hx with rfl | hx2
          · intro hmem
            exact hnl l (List.mem_cons_self _ _)
              ((List.dropWhile_sublist isSpace).subset hmem)
          · exact hnl x (List.mem_cons_of_mem _ hx2)
        · rw [List.chain'_cons']
          exact ⟨fun y _ => Or.inl hld, (List.chain'_cons'.mp hch).2⟩
        · intro h hh
          simp only [List.head?_cons, Option.some.injEq] at hh
          subst hh
          exact hld

theorem rstrip_joinNl (L1 : List (List Char))
    (hr : ∀ l ∈ L1, rstripCh l = l) (hnl : ∀ l ∈ L1, '\n' ∉ l)
    (hch : List.Chain' (fun a b => a ≠ [] ∨ b ≠ []) L1)
    (hhd : ∀ h, L1.head? = some h → h ≠ []) :
    ∃ L2 : List (List Char),
      rstripCh (joinNl L1) = joinNl L2
      ∧ (∀ l ∈ L2, rstripCh l = l) ∧ (∀ l ∈ L2, '\n' ∉ l)
      ∧ List.Chain' (fun a b => a ≠ [] ∨ b ≠ []) L2
      ∧ (∀ h, L2.head? = some h → h ≠ [])
      ∧ (∀ z, L2.getLast? = some z → z ≠ []) := by
  rcases List.eq_nil_or_concat' L1 with rfl | ⟨init, z, rfl⟩
  · exact ⟨[], by simp [joinNl, rstripCh], by simp, by simp, by simp, by simp, by simp⟩
  · by_cases hz : z = []
    · subst hz
      have hinit : init ≠ [] := by
        rintro rfl
        exact hhd [] rfl rfl
      obtain ⟨hch1, -, hrel⟩ := List.chain'_append.mp hch
      rcases List.eq_nil_or_concat' init with rfl | ⟨init2, z2, rfl⟩
      · exact absurd rfl hinit
      · have hz2last : (init2 ++ [z2]).getLast? = some z2 := by
          rw [List.getLast?_append_of_ne_nil init2 (by simp)]
          rfl
        have hz2 : z2 ≠ [] := by
          have := hrel z2 (by rw [hz2last]; rfl) [] rfl
          rcases this with h | h
          · exact h
          · exact absurd rfl h
        have hz2r : rstripCh z2 = z2 :=
          hr z2 (List.mem_append_left _ (List.mem_append_right _ (List.mem_singleton_self _)))
        refine ⟨init2 ++ [z2], ?_, ?_, ?_, hch1, ?_, ?_⟩
        · rw [joinNl_concat_nil (init2 ++ [z2]) hinit,
            rstripCh_append_ws_single _ '\n' (by decide),
            rstripCh_eq_self _ (noTrailWs_joinNl_concat init2 z2 hz2 hz2r)]
        · exact fun x hx => hr x (List.mem_append_left _ hx)
        · exact fun x hx => hnl x (List.mem_append_left _ hx)
        · intro h hh
          apply hhd h
          rw [headNe_append_of_ne_nil (init2 ++ [z2]) [[]] hinit]
          exact hh
        · intro z0 hz0
          rw [hz2last] at hz0
          injection hz0 with hz0
          subst hz0
          exact hz2
    · have hzr : rstripCh z = z :=
        hr z (List.mem_append_right _ (List.mem_singleton_self _))
      refine ⟨init ++ [z], ?_, hr, hnl, hch, hhd, ?_⟩
      · rw [rstripCh_eq_self _ (noTrailWs_joinNl_concat init z hz hzr)]
      · intro z0 hz0
        rw [List.getLast?_append_of_ne_nil init (by simp)] at hz0
        simp only [List.getLast?_singleton, Option.some.injEq] at hz0
        subst hz0
        exact hz


/-- C7: the text field of every extracted Record (always an output of
`normalize_text`, or empty) satisfies the normalization invariant: every
line of it is right-trimmed, no two consecutive lines are blank (runs of
blank lines were collapsed), and when the text is non-empty its first
and last lines are non-blank. -/
theorem normalize_text_invariant (s : String) :
    (∀ l ∈ splitOnNl (normalize_text s).data, rstripCh l = l)
    ∧ List.Chain' (fun a b => a ≠ [] ∨ b ≠ [])
        (splitOnNl (normalize_text s).data)
    ∧ (normalize_text s ≠ "" →
        (splitOnNl (normalize_text s).data).head? ≠ some []
        ∧ (splitOnNl (normalize_text s).data).getLast? ≠ some []) := by
  have hr0 : ∀ l ∈ collapseBlankRuns false ((pySplitlines s.data).map rstripCh),
      rstripCh l = l := by
    intro l hl
    rcases mem_collapseBlankRuns _ false l hl with rfl | hl2
    · rfl
    · obtain ⟨x, _, rfl⟩ := List.mem_map.mp hl2
      exact rstripCh_idem x
  have hnl0 : ∀ l ∈ collapseBlankRuns false ((pySplitlines s.data).map rstripCh),
      '\n' ∉ l := by
    intro l hl
    rcases mem_collapseBlankRuns _ false l hl with rfl | hl2
    · simp
    · obtain ⟨x, hx, rfl⟩ := List.mem_map.mp hl2
      intro hmem
      exact pySplitlines_nl_free s.data x hx (mem_of_mem_rstripCh hmem)
  obtain ⟨L1, heq1, hr1, hnl1, hch1, hhd1⟩ :=
    lstrip_joinNl (collapseBlankRuns false ((pySplitlines s.data).map rstripCh)).length
      (collapseBlankRuns false ((pySplitlines s.data).map rstripCh)) le_rfl
      hr0 hnl0 (chain_collapseBlankRuns _ false)
  obtain ⟨L2, heq2, hr2, hnl2, hch2, hhd2, hlast2⟩ :=
    rstrip_joinNl L1 hr1 hnl1 hch1 hhd1
  have hdata : (normalize_text s).data = joinNl L2 := by
    show stripCh (joinNl (collapseBlankRuns false
      ((pySplitlines s.data).map rstripCh))) = joinNl L2
    unfold stripCh
    rw [heq1, heq2]
  by_cases hL2 : L2 = []
  · subst hL2
    have hempty : normalize_text s = "" := by
      have : (normalize_text s).data = [] := by rw [hdata]; rfl
      cases hns : normalize_text s with
      | mk d => rw [hns] at this; simp at this; rw [this]
    refine ⟨?_, ?_, fun hne => absurd hempty hne⟩
    · intro l hl
      rw [hdata] at hl
      simp only [joinNl, splitOnNl, List.mem_singleton] at hl
      subst hl
      rfl
    · rw [hdata]
      exact List.chain'_singleton _
  · rw [hdata, splitOnNl_joinNl L2 hL2 hnl2]
    refine ⟨hr2, hch2, fun _ => ⟨?_, ?_⟩⟩
    · intro habs
      exact hhd2 [] habs rfl
    · intro habs
      exact hlast2 [] habs rfl

/-- Witness for C7: a concrete input with trailing spaces and a run of
three newlines; the hypotheses of the invariant are discharged at the
normalized output `"a\n\nb"`. -/
theorem normalize_text_invariant_witness :
    rstripCh ['a'] = ['a']
    ∧ ((splitOnNl (normalize_text "a \n\n\nb").data).head? ≠ some []
        ∧ (splitOnNl (normalize_text "a \n\n\nb").data).getLast? ≠ some []) :=
  ⟨(normalize_text_invariant "a \n\n\nb").1 ['a'] (by decide),
   (normalize_text_invariant "a \n\n\nb").2.2 (by decide)⟩


theorem matchAIdAt_some_ne_nil :
    ∀ (s seg : List Char), matchAIdAt s = some seg → seg ≠ [] := by
  intro s seg h
  match s with
  | [] => simp [matchAIdAt] at h
  | [_] => simp [matchAIdAt] at h
  | [_, _] => simp [matchAIdAt] at h
  | c1 :: c2 :: c3 :: rest =>
    rw [matchAIdAt] at h
    split at h
    · split at h
      · exact absurd h (by simp)
      · rename_i hne
        injection h with h
        subst h
        exact hne
    · exact absurd h (by simp)

theorem searchAId_some_ne_nil :
    ∀ (s seg : List Char), searchAId s = some seg → seg ≠ [] := by
  intro s
  induction s with
  | nil => intro seg h; simp [searchAId] at h
  | cons c rest ih =>
    intro seg h
    unfold searchAId at h
    cases hm : matchAIdAt (c :: rest) with
    | some seg2 =>
      rw [hm] at h
      injection h with h
      subst h
      exact matchAIdAt_some_ne_nil _ _ hm
    | none =>
      rw [hm] at h
      exact ih seg h

/-- C8: the extracted id is never empty when the href starts with
`/a/` (as the CSS selector guarantees): when the `/a/<id>` pattern
matches somewhere in the href the id is the captured segment, and when
it does not the id falls back to the raw href. -/
theorem entry_id_nonempty_with_fallback (href : String) (rest : List Char)
    (hpre : href.data = '/' :: 'a' :: '/' :: rest) :
    extract_entry_id href ≠ ""
    ∧ (∀ seg, searchAId href.data = some seg →
        (extract_entry_id href).data = seg ∧ seg ≠ [])
    ∧ (searchAId href.data = none → extract_entry_id href = href) := by
  refine ⟨?_, ?_, ?_⟩
  · unfold extract_entry_id
    cases h : searchAId href.data with
    | some seg =>
      intro habs
      exact searchAId_some_ne_nil _ _ h (by simpa using congrArg String.data habs)
    | none =>
      intro habs
      have hd := congrArg String.data habs
      rw [hpre] at hd
      simp at hd
  · intro seg h
    unfold extract_entry_id
    rw [h]
    exact ⟨rfl, searchAId_some_ne_nil _ _ h⟩
  · intro h
    unfold extract_entry_id
    rw [h]

/-- Witness for C8: a matching href and a pattern-free href. -/
theorem entry_id_nonempty_with_fallback_witness :
    extract_entry_id "/a/Xy9" ≠ ""
    ∧ ((extract_entry_id "/a/Xy9").data = ['X', 'y', '9']
        ∧ (['X', 'y', '9'] : List Char) ≠ [])
    ∧ extract_entry_id "/a/日记" = "/a/日记" :=
  ⟨(entry_id_nonempty_with_fallback "/a/Xy9" ['X', 'y', '9'] (by decide)).1,
   (entry_id_nonempty_with_fallback "/a/Xy9" ['X', 'y', '9'] (by decide)).2.1
     ['X', 'y', '9'] (by decide),
   (entry_id_nonempty_with_fallback "/a/日记" "日记".data (by decide)).2.2
     (by decide)⟩


theorem scrapeLoop_skip (fetch : String → String) (extract : String → List Entry)
    (postsUrl : String) (maxPages : Option Nat) :
    ∀ (k p fuel : Nat) (urls : List String) (acc : List Entry),
      (∀ q, p ≤ q → q < p + k →
        is_login_page (fetch (pageUrl postsUrl q)) = false) →
      (∀ q, p ≤ q → q < p + k → extract (fetch (pageUrl postsUrl q)) ≠ []) →
      (∀ m, maxPages = some m → p + k ≤ m) →
      scrapeLoop fetch extract postsUrl maxPages (fuel + k) p urls acc
        = scrapeLoop fetch extract postsUrl maxPages fuel (p + k)
            (((List.range' p k).map (pageUrl postsUrl)).reverse ++ urls)
            (acc ++ ((List.range' p k).map
              (fun q => extract (fetch (pageUrl postsUrl q)))).flatten) := by
  intro k
  induction k with
  | zero =>
    intro p fuel urls acc _ _ _
    simp
  | succ k ih =>
    intro p fuel urls acc hlogin hne hmax
    have hstep : scrapeLoop fetch extract postsUrl maxPages (fuel + k + 1) p urls acc
        = scrapeLoop fetch extract postsUrl maxPages (fuel + k) (p + 1)
            (pageUrl postsUrl p :: urls)
            (acc ++ extract (fetch (pageUrl postsUrl p))) := by
      rw [scrapeLoop]
      rw [if_neg (by rw [hlogin p le_rfl (by omega)]; simp)]
      rw [if_neg (hne p le_rfl (by omega))]
      have hmr : maxReached maxPages p = false := by
        cases hmp : maxPages with
        | none => rfl
        | some m =>
          have := hmax m hmp
          simp only [maxReached, decide_eq_false_iff_not]
          omega
      rw [if_neg (by rw [hmr]; simp)]
    rw [show fuel + (k + 1) = fuel + k + 1 from rfl, hstep]
    rw [ih (p + 1) fuel (pageUrl postsUrl p :: urls)
      (acc ++ extract (fetch (pageUrl postsUrl p)))
      (fun q h1 h2 => hlogin q (by omega) (by omega))
      (fun q h1 h2 => hne q (by omega) (by omega))
      (fun m hm => by have := hmax m hm; omega)]
    have hurl : ((List.range' (p + 1) k).map (pageUrl postsUrl)).reverse
          ++ (pageUrl postsUrl p :: urls)
        = ((List.range' p (k + 1)).map (pageUrl postsUrl)).reverse ++ urls := by
      rw [List.range'_succ]
      simp
    have hacc : (acc ++ extract (fetch (pageUrl postsUrl p)))
          ++ ((List.range' (p + 1) k).map
            (fun q => extract (fetch (pageUrl postsUrl q)))).flatten
        = acc ++ ((List.range' p (k + 1)).map
            (fun q => extract (fetch (pageUrl postsUrl q)))).flatten := by
      rw [List.range'_succ]
      simp
    rw [hurl, hacc]
    congr 1
    omega


theorem scrapeLoop_end_empty (fetch : String → String) (extract : String → List Entry)
    (postsUrl : String) (maxPages : Option Nat) (fuel : Nat) (hf : 1 ≤ fuel)
    (page : Nat) (urls : List String) (acc : List Entry)
    (hlogin : is_login_page (fetch (pageUrl postsUrl page)) = false)
    (hempty : extract (fetch (pageUrl postsUrl page)) = []) :
    scrapeLoop fetch extract postsUrl maxPages fuel page urls acc
      = .ok (pageUrl postsUrl page :: urls).reverse acc := by
  obtain ⟨f, rfl⟩ : ∃ f, fuel = f + 1 := ⟨fuel - 1, by omega⟩
  rw [scrapeLoop]
  rw [if_neg (by rw [hlogin]; simp)]
  rw [if_pos hempty]

theorem scrapeLoop_end_max (fetch : String → String) (extract : String → List Entry)
    (postsUrl : String) (m : Nat) (fuel : Nat) (hf : 1 ≤ fuel)
    (page : Nat) (urls : List String) (acc : List Entry)
    (hlogin : is_login_page (fetch (pageUrl postsUrl page)) = false)
    (hne : extract (fetch (pageUrl postsUrl page)) ≠ [])
    (hm : m ≤ page) :
    scrapeLoop fetch extract postsUrl (some m) fuel page urls acc
      = .ok (pageUrl postsUrl page :: urls).reverse
          (acc ++ extract (fetch (pageUrl postsUrl page))) := by
  obtain ⟨f, rfl⟩ : ∃ f, fuel = f + 1 := ⟨fuel - 1, by omega⟩
  rw [scrapeLoop]
  rw [if_neg (by rw [hlogin]; simp)]
  rw [if_neg hne]
  rw [if_pos (by simp only [maxReached, decide_eq_true_eq]; exact hm)]

theorem scrapeLoop_sessionExpired (fetch : String → String)
    (extract : String → List Entry)
    (postsUrl : String) (maxPages : Option Nat) (fuel : Nat) (hf : 1 ≤ fuel)
    (page : Nat) (urls : List String) (acc : List Entry)
    (hlogin : is_login_page (fetch (pageUrl postsUrl page)) = true) :
    scrapeLoop fetch extract postsUrl maxPages fuel page urls acc
      = .sessionExpired (pageUrl postsUrl page :: urls).reverse
          (sessionExpiredMsg page) := by
  obtain ⟨f, rfl⟩ : ∃ f, fuel = f + 1 := ⟨fuel - 1, by omega⟩
  rw [scrapeLoop]
  rw [if_pos hlogin]

/-- C5: the fetch loop requests page 1 at the unmodified list URL and
every later page `n` at `<url>?page=<n>`, in increasing page order, and
terminates without error at the first page whose extraction is empty —
or earlier, once `max_pages` is reached. -/
theorem scrape_pagination (fetch : String → String) (extract : String → List Entry)
    (postsUrl : String) (maxPages : Option Nat) (P : Nat)
    (hP : 1 ≤ P)
    (hlogin : ∀ q, 1 ≤ q → q ≤ P → is_login_page (fetch (pageUrl postsUrl q)) = false)
    (hne : ∀ q, 1 ≤ q → q < P → extract (fetch (pageUrl postsUrl q)) ≠ [])
    (hempty : extract (fetch (pageUrl postsUrl P)) = []) :
    pageUrl postsUrl 1 = postsUrl
    ∧ (∀ n, 2 ≤ n → pageUrl postsUrl n = postsUrl ++ "?page=" ++ Nat.repr n)
    ∧ (maxPages = none →
        scrape_all fetch extract postsUrl maxPages P
          = .ok ((List.range' 1 P).map (pageUrl postsUrl))
              (dedupById (((List.range' 1 (P - 1)).map
                (fun q => extract (fetch (pageUrl postsUrl q)))).flatten)))
    ∧ (∀ m, maxPages = some m → P ≤ m →
        scrape_all fetch extract postsUrl maxPages P
          = .ok ((List.range' 1 P).map (pageUrl postsUrl))
              (dedupById (((List.range' 1 (P - 1)).map
                (fun q => extract (fetch (pageUrl postsUrl q)))).flatten)))
    ∧ (∀ m, maxPages = some m → 1 ≤ m → m < P →
        scrape_all fetch extract postsUrl maxPages P
          = .ok ((List.range' 1 m).map (pageUrl postsUrl))
              (dedupById (((List.range' 1 m).map
                (fun q => extract (fetch (pageUrl postsUrl q)))).flatten))) := by
  obtain ⟨k, rfl⟩ : ∃ k, P = k + 1 := ⟨P - 1, by omega⟩
  have hfullNoCut : ∀ mp, (∀ m2, mp = some m2 → k + 1 ≤ m2) →
      scrape_all fetch extract postsUrl mp (k + 1)
        = .ok ((List.range' 1 (k + 1)).map (pageUrl postsUrl))
            (dedupById (((List.range' 1 (k + 1 - 1)).map
              (fun q => extract (fetch (pageUrl postsUrl q)))).flatten)) := by
    intro mp hcut
    have h1 := scrapeLoop_skip fetch extract postsUrl mp k 1 1 [] []
      (fun q hq1 hq2 => hlogin q hq1 (by omega))
      (fun q hq1 hq2 => hne q hq1 (by omega))
      (fun m2 hm2 => by have := hcut m2 hm2; omega)
    rw [Nat.add_comm 1 k] at h1
    have hloop : scrapeLoop fetch extract postsUrl mp (k + 1) 1 [] []
        = .ok ((List.range' 1 (k + 1)).map (pageUrl postsUrl))
            (((List.range' 1 (k + 1 - 1)).map
              (fun q => extract (fetch (pageUrl postsUrl q)))).flatten) := by
      rw [h1]
      rw [scrapeLoop_end_empty fetch extract postsUrl mp 1 le_rfl (k + 1) _ _
        (hlogin (k + 1) (by omega) le_rfl) hempty]
      rw [show (List.range' 1 (k + 1)).map (pageUrl postsUrl)
          = (List.range' 1 k).map (pageUrl postsUrl) ++ [pageUrl postsUrl (k + 1)]
          from by rw [List.range'_1_concat, Nat.add_comm 1 k]; simp]
      simp
    unfold scrape_all
    rw [hloop]
  refine ⟨if_pos rfl, fun n hn => if_neg (by omega), ?_, ?_, ?_⟩
  · intro hmp
    subst hmp
    exact hfullNoCut none (fun m2 hm2 => by cases hm2)
  · intro m hmp hPm
    subst hmp
    exact hfullNoCut (some m) (fun m2 hm2 => by injection hm2 with hm2; omega)
  · intro m hmp hm1 hmP
    subst hmp
    obtain ⟨j, rfl⟩ : ∃ j, m = j + 1 := ⟨m - 1, by omega⟩
    have h1 := scrapeLoop_skip fetch extract postsUrl (some (j + 1)) j 1
      (k + 1 - j) [] []
      (fun q hq1 hq2 => hlogin q hq1 (by omega))
      (fun q hq1 hq2 => hne q hq1 (by omega))
      (fun m2 hm2 => by injection hm2 with hm2; omega)
    rw [show k + 1 - j + j = k + 1 from by omega] at h1
    have hloop : scrapeLoop fetch extract postsUrl (some (j + 1)) (k + 1) 1 [] []
        = .ok ((List.range' 1 (j + 1)).map (pageUrl postsUrl))
            (((List.range' 1 (j + 1)).map
              (fun q => extract (fetch (pageUrl postsUrl q)))).flatten) := by
      rw [h1]
      rw [scrapeLoop_end_max fetch extract postsUrl (j + 1) (k + 1 - j)
        (by omega) (1 + j) _ _
        (hlogin (1 + j) (by omega) (by omega))
        (hne (1 + j) (by omega) (by omega)) (by omega)]
      rw [show (List.range' 1 (j + 1)).map (pageUrl postsUrl)
          = (List.range' 1 j).map (pageUrl postsUrl) ++ [pageUrl postsUrl (1 + j)]
          from by rw [List.range'_1_concat]; simp]
      rw [show (List.range' 1 (j + 1)).map
            (fun q => extract (fetch (pageUrl postsUrl q)))
          = (List.range' 1 j).map (fun q => extract (fetch (pageUrl postsUrl q)))
            ++ [extract (fetch (pageUrl postsUrl (1 + j)))]
          from by rw [List.range'_1_concat]; simp]
      simp [Nat.add_comm 1 j]
    unfold scrape_all
    rw [hloop]

/-- Witness for C5 at a constant empty site: page 1 is requested at the
bare list URL and the loop stops there. -/
theorem scrape_pagination_witness :
    scrape_all (fun _ => "") (fun _ => ([] : List Entry))
        "https://icity.ly/u/alice/posts" none 1
      = .ok ((List.range' 1 1).map (pageUrl "https://icity.ly/u/alice/posts"))
          (dedupById (((List.range' 1 (1 - 1)).map
            (fun q => (fun _ => ([] : List Entry))
              ((fun _ => "") (pageUrl "https://icity.ly/u/alice/posts" q)))).flatten)) :=
  (scrape_pagination (fun _ => "") (fun _ => ([] : List Entry))
      "https://icity.ly/u/alice/posts" none 1 (by decide)
      (fun q h1 h2 => by show is_login_page "" = false; decide)
      (fun q h1 h2 => by omega)
      (by decide)).2.2.1 rfl




/-- C4: a login page detected on page `p` aborts the run with the error
message naming page `p`, and no output file (JSON, TXT or Markdown) is
written: the export produces an empty write list and the error. -/
theorem session_expiry_aborts_before_output (fetch : String → String)
    (extract : String → List Entry) (postsUrl : String)
    (maxPages : Option Nat) (fuel : Nat)
    (jsonPath txtPath mdRoot : String) (splitMd : Bool) (p : Nat)
    (hp : 1 ≤ p) (hfuel : p ≤ fuel)
    (hm : ∀ m, maxPages = some m → p ≤ m)
    (hloginBefore : ∀ q, 1 ≤ q → q < p →
      is_login_page (fetch (pageUrl postsUrl q)) = false)
    (hneBefore : ∀ q, 1 ≤ q → q < p → extract (fetch (pageUrl postsUrl q)) ≠ [])
    (hlogin : is_login_page (fetch (pageUrl postsUrl p)) = true) :
    mainExport fetch extract postsUrl maxPages fuel jsonPath txtPath mdRoot splitMd
      = ([], some ("导出失败：" ++ sessionExpiredMsg p))
    ∧ ∃ pre suf, (sessionExpiredMsg p).data
        = pre ++ (Nat.repr p).data ++ suf := by
  obtain ⟨j, rfl⟩ : ∃ j, p = j + 1 := ⟨p - 1, by omega⟩
  constructor
  · have h1 := scrapeLoop_skip fetch extract postsUrl maxPages j 1 (fuel - j) [] []
      (fun q hq1 hq2 => hloginBefore q hq1 (by omega))
      (fun q hq1 hq2 => hneBefore q hq1 (by omega))
      (fun m2 hm2 => by have := hm m2 hm2; omega)
    rw [show fuel - j + j = fuel from by omega] at h1
    rw [Nat.add_comm 1 j] at h1
    have hloop : scrapeLoop fetch extract postsUrl maxPages fuel 1 [] []
        = .sessionExpired
            ((pageUrl postsUrl (j + 1)
              :: (((List.range' 1 j).map (pageUrl postsUrl)).reverse ++ [])).reverse)
            (sessionExpiredMsg (j + 1)) := by
      rw [h1]
      exact scrapeLoop_sessionExpired fetch extract postsUrl maxPages (fuel - j)
        (by omega) (j + 1) _ _ hlogin
    unfold mainExport scrape_all
    rw [hloop]
  · exact ⟨"抓取到第 ".data, " 页时会话失效，请重新运行".data,
      by simp [sessionExpiredMsg, String.data_append]⟩

/-- Witness for C4: the seeded login page aborts at page 1 with no
files written. -/
theorem session_expiry_aborts_before_output_witness :
    mainExport (fun _ => "开始使用网页版 用户名 / Email 登入")
        (fun _ => ([] : List Entry)) "https://icity.ly/u/alice/posts" none 1
        "out.json" "out.txt" "out_md" true
      = ([], some ("导出失败：" ++ sessionExpiredMsg 1))
    ∧ ∃ pre suf, (sessionExpiredMsg 1).data
        = pre ++ (Nat.repr 1).data ++ suf :=
  session_expiry_aborts_before_output
    (fun _ => "开始使用网页版 用户名 / Email 登入") (fun _ => ([] : List Entry))
    "https://icity.ly/u/alice/posts" none 1 "out.json" "out.txt" "out_md" true 1
    (by decide) (by decide) (fun m h => by cases h)
    (fun q h1 h2 => absurd (Nat.lt_of_lt_of_le h2 h1) (Nat.lt_irrefl q))
    (fun q h1 h2 => absurd (Nat.lt_of_lt_of_le h2 h1) (Nat.lt_irrefl q))
    (by show is_login_page "开始使用网页版 用户名 / Email 登入" = true; decide)


theorem digVal_digitChar (m : Nat) (h : m < 10) :
    digVal (Nat.digitChar m) = m := by
  interval_cases m <;> decide

theorem foldl_toDigitsCore :
    ∀ (fuel n : Nat) (acc : List Char), n < 10 ^ fuel →
      (Nat.toDigitsCore 10 fuel n acc).foldl (fun a c => a * 10 + digVal c) 0
        = acc.foldl (fun a c => a * 10 + digVal c) n := by
  intro fuel
  induction fuel with
  | zero =>
    intro n acc hn
    obtain rfl : n = 0 := by simpa using hn
    rfl
  | succ fuel ih =>
    intro n acc hn
    rw [Nat.toDigitsCore]
    by_cases h : n / 10 = 0
    · rw [if_pos h]
      have hn10 : n < 10 := by omega
      simp only [List.foldl_cons]
      rw [digVal_digitChar (n % 10) (by omega)]
      congr 1
      omega
    · rw [if_neg h]
      rw [ih (n / 10) (Nat.digitChar (n % 10) :: acc)
        (by
          have : (10 : Nat) ^ (fuel + 1) = 10 ^ fuel * 10 := by ring
          exact Nat.div_lt_of_lt_mul (by omega))]
      simp only [List.foldl_cons]
      rw [digVal_digitChar (n % 10) (by omega)]
      congr 1
      omega

theorem digitsToNat_repr (n : Nat) : digitsToNat (Nat.repr n).data = n := by
  show (Nat.toDigitsCore 10 (n + 1) n []).foldl (fun a c => a * 10 + digVal c) 0 = n
  rw [foldl_toDigitsCore (n + 1) n []
    (lt_of_lt_of_le (Nat.lt_pow_self (by omega) n)
      (Nat.pow_le_pow_right (by omega) (Nat.le_succ n)))]
  rfl

theorem digitsToNat_replicate_zero (k : Nat) (ds : List Char) :
    digitsToNat (List.replicate k '0' ++ ds) = digitsToNat ds := by
  induction k with
  | zero => rfl
  | succ k ih =>
    rw [List.replicate_succ, List.cons_append]
    exact ih

theorem pad2_data_inj (a b : Nat) (h : (pad2 a).data = (pad2 b).data) : a = b := by
  have h2 := congrArg digitsToNat h
  simp only [pad2] at h2
  rwa [digitsToNat_replicate_zero, digitsToNat_replicate_zero,
    digitsToNat_repr, digitsToNat_repr] at h2

theorem pad4_data_inj (a b : Nat) (h : (pad4 a).data = (pad4 b).data) : a = b := by
  have h2 := congrArg digitsToNat h
  simp only [pad4] at h2
  rwa [digitsToNat_replicate_zero, digitsToNat_replicate_zero,
    digitsToNat_repr, digitsToNat_repr] at h2

theorem pad2_data_length (n : Nat) (h : n < 100) : (pad2 n).data.length = 2 := by
  have hle : (Nat.repr n).length ≤ 2 := Nat.repr_length n 2 (by omega) (by omega)
  simp only [pad2, List.length_append, List.length_replicate]
  have : (Nat.repr n).data.length = (Nat.repr n).length := rfl
  omega

theorem pad4_data_length (n : Nat) (h : n < 10000) : (pad4 n).data.length = 4 := by
  have hle : (Nat.repr n).length ≤ 4 := Nat.repr_length n 4 (by omega) (by omega)
  simp only [pad4, List.length_append, List.length_replicate]
  have : (Nat.repr n).data.length = (Nat.repr n).length := rfl
  omega


theorem digVal_le_9 (c : Char) (h : isDig c = true) : digVal c ≤ 9 := by
  simp only [isDig, Char.isDigit, Bool.and_eq_true, decide_eq_true_eq] at h
  obtain ⟨h1, h2⟩ := h
  have : c.val.toNat ≤ 57 := by
    exact UInt32.le_def.mp h2
  simp only [digVal, Char.toNat]
  omega

theorem takeDigits_spec :
    ∀ (k : Nat) (s ds r : List Char), takeDigits k s = some (ds, r) →
      ds.length = k ∧ ∀ c ∈ ds, isDig c = true := by
  intro k
  induction k with
  | zero =>
    intro s ds r h
    simp only [takeDigits, Option.some.injEq, Prod.mk.injEq] at h
    obtain ⟨h1, -⟩ := h
    subst h1
    exact ⟨rfl, by simp⟩
  | succ k ih =>
    intro s ds r h
    cases s with
    | nil => simp [takeDigits] at h
    | cons c rest =>
      by_cases hdig : isDig c = true
      · cases htd : takeDigits k rest with
        | none => simp [takeDigits, hdig, htd] at h
        | some pr =>
          obtain ⟨ds2, r2⟩ := pr
          simp only [takeDigits, hdig, htd, if_true,
            Option.some.injEq, Prod.mk.injEq] at h
          obtain ⟨h1, -⟩ := h
          subst h1
          obtain ⟨hlen, hall⟩ := ih rest ds2 r2 htd
          refine ⟨by simp [hlen], ?_⟩
          intro x hx
          rcases List.mem_cons.mp hx with rfl | hx2
          · exact hdig
          · exact hall x hx2
      · simp [takeDigits, hdig] at h

theorem foldl_digits_lt :
    ∀ (ds : List Char) (a : Nat), (∀ c ∈ ds, isDig c = true) →
      ds.foldl (fun n c => n * 10 + digVal c) a < (a + 1) * 10 ^ ds.length := by
  intro ds
  induction ds with
  | nil => intro a _; simpa using Nat.lt_succ_self a
  | cons c rest ih =>
    intro a hall
    simp only [List.foldl_cons, List.length_cons]
    have h9 : digVal c ≤ 9 := digVal_le_9 c (hall c (List.mem_cons_self _ _))
    have hmain := ih (a * 10 + digVal c) (fun x hx => hall x (List.mem_cons_of_mem _ hx))
    calc rest.foldl (fun n c => n * 10 + digVal c) (a * 10 + digVal c)
        < (a * 10 + digVal c + 1) * 10 ^ rest.length := hmain
      _ ≤ ((a + 1) * 10) * 10 ^ rest.length := by
          apply Nat.mul_le_mul_right
          omega
      _ = (a + 1) * 10 ^ (rest.length + 1) := by ring

theorem digitsToNat_lt (ds : List Char) (hall : ∀ c ∈ ds, isDig c = true) :
    digitsToNat ds < 10 ^ ds.length := by
  have := foldl_digits_lt ds 0 hall
  simpa [digitsToNat] using this

theorem digits12Then_lt (stop : Char) :
    ∀ (s : List Char) (v : Nat) (r : List Char),
      digits12Then stop s = some (v, r) → v < 100 := by
  intro s v r h
  cases s with
  | nil => simp [digits12Then] at h
  | cons a rest1 =>
    by_cases hdiga : isDig a = true
    · cases rest1 with
      | nil => simp [digits12Then, hdiga] at h
      | cons b rest2 =>
        by_cases hdigb : isDig b = true
        · cases rest2 with
          | nil => simp [digits12Then, hdiga, hdigb] at h
          | cons c rest3 =>
            rw [show digits12Then stop (a :: b :: c :: rest3)
                = if c = stop then some (digVal a * 10 + digVal b, rest3)
                  else none from by simp [digits12Then, hdiga, hdigb]] at h
            by_cases hstop : c = stop
            · rw [if_pos hstop] at h
              injection h with h
              have hv : v = digVal a * 10 + digVal b :=
                (congrArg Prod.fst h).symm
              have h9a := digVal_le_9 a hdiga
              have h9b := digVal_le_9 b hdigb
              omega
            · rw [if_neg hstop] at h
              exact absurd h (by simp)
        · rw [show digits12Then stop (a :: b :: rest2)
              = if b = stop then some (digVal a, rest2) else none
              from by simp [digits12Then, hdiga, hdigb]] at h
          by_cases hstop : b = stop
          · rw [if_pos hstop] at h
            injection h with h
            have hv : v = digVal a := (congrArg Prod.fst h).symm
            have h9a := digVal_le_9 a hdiga
            omega
          · rw [if_neg hstop] at h
            exact absurd h (by simp)
    · simp [digits12Then, hdiga] at h

theorem dateMatchAt_bounds (s : List Char) (mo d y : Nat)
    (h : dateMatchAt s = some (mo, d, y)) :
    mo < 100 ∧ d < 100 ∧ y < 10000 := by
  cases h1 : digits12Then '月' s with
  | none => simp [dateMatchAt, h1] at h
  | some pr1 =>
    obtain ⟨mo2, r1⟩ := pr1
    cases h2 : digits12Then '日' (r1.dropWhile isSpace) with
    | none => simp [dateMatchAt, h1, h2] at h
    | some pr2 =>
      obtain ⟨d2, r2⟩ := pr2
      cases h3 : takeDigits 4 (r2.dropWhile isSpace) with
      | none => simp [dateMatchAt, h1, h2, h3] at h
      | some pr3 =>
        obtain ⟨ys, r3⟩ := pr3
        simp only [dateMatchAt, h1, h2, h3, Option.some.injEq,
          Prod.mk.injEq] at h
        obtain ⟨hmo, hd, hy⟩ := h
        subst hmo hd hy
        obtain ⟨hlen, hall⟩ := takeDigits_spec 4 _ ys r3 h3
        refine ⟨digits12Then_lt _ _ _ _ h1, digits12Then_lt _ _ _ _ h2, ?_⟩
        have := digitsToNat_lt ys hall
        rwa [hlen] at this

theorem tier1Match_bounds (s : List Char) (y mo d : Nat) (hm : String)
    (h : tier1Match s = some (y, mo, d, hm)) :
    y < 10000 ∧ mo < 100 ∧ d < 100 := by
  cases h1 : takeDigits 4 s with
  | none => simp [tier1Match, h1] at h
  | some pr1 =>
  obtain ⟨ys, r1⟩ := pr1
  cases h2 : expectChar '-' r1 with
  | none => simp [tier1Match, h1, h2] at h
  | some r2 =>
  cases h3 : takeDigits 2 r2 with
  | none => simp [tier1Match, h1, h2, h3] at h
  | some pr3 =>
  obtain ⟨mos, r3⟩ := pr3
  cases h4 : expectChar '-' r3 with
  | none => simp [tier1Match, h1, h2, h3, h4] at h
  | some r4 =>
  cases h5 : takeDigits 2 r4 with
  | none => simp [tier1Match, h1, h2, h3, h4, h5] at h
  | some pr5 =>
  obtain ⟨ds, r5⟩ := pr5
  cases h6 : dropSpaces1 r5 with
  | none => simp [tier1Match, h1, h2, h3, h4, h5, h6] at h
  | some r6 =>
  cases h7 : takeDigits 2 r6 with
  | none => simp [tier1Match, h1, h2, h3, h4, h5, h6, h7] at h
  | some pr7 =>
  obtain ⟨hs, r7⟩ := pr7
  cases h8 : expectChar ':' r7 with
  | none => simp [tier1Match, h1, h2, h3, h4, h5, h6, h7, h8] at h
  | some r8 =>
  cases h9 : takeDigits 2 r8 with
  | none => simp [tier1Match, h1, h2, h3, h4, h5, h6, h7, h8, h9] at h
  | some pr9 =>
  obtain ⟨mins, r9⟩ := pr9
  by_cases hend : r9 = [] ∨ r9 = ['\n']
  · simp only [tier1Match, h1, h2, h3, h4, h5, h6, h7, h8, h9, hend, if_true,
      Option.some.injEq, Prod.mk.injEq] at h
    obtain ⟨hy, hmo2, hd2, -⟩ := h
    subst hy hmo2 hd2
    obtain ⟨hly, hay⟩ := takeDigits_spec 4 _ ys _ h1
    obtain ⟨hlm, ham⟩ := takeDigits_spec 2 _ mos _ h3
    obtain ⟨hld, had⟩ := takeDigits_spec 2 _ ds _ h5
    refine ⟨?_, ?_, ?_⟩
    · have := digitsToNat_lt ys hay
      rwa [hly] at this
    · have := digitsToNat_lt mos ham
      rwa [hlm] at this
    · have := digitsToNat_lt ds had
      rwa [hld] at this
  · simp [tier1Match, h1, h2, h3, h4, h5, h6, h7, h8, h9, hend] at h

theorem searchDate_bounds :
    ∀ (s : List Char) (mo d y : Nat), searchDate s = some (mo, d, y) →
      mo < 100 ∧ d < 100 ∧ y < 10000 := by
  intro s
  induction s with
  | nil => intro mo d y h; simp [searchDate] at h
  | cons c rest ih =>
    intro mo d y h
    unfold searchDate at h
    cases hm : dateMatchAt (c :: rest) with
    | some r =>
      rw [hm] at h
      injection h with h
      subst h
      exact dateMatchAt_bounds _ _ _ _ hm
    | none =>
      rw [hm] at h
      exact ih mo d y h

theorem parse_day_bounds (e : Entry) (y mo d : Nat) (hm : String)
    (h : parse_entry_datetime_parts e = some (y, mo, d, hm)) :
    y < 10000 ∧ mo < 100 ∧ d < 100 := by
  unfold parse_entry_datetime_parts at h
  split at h
  · rename_i r heq
    injection h with h
    subst h
    by_cases hdl : e.datetime_local = ""
    · rw [if_pos hdl] at heq
      exact absurd heq (by simp)
    · rw [if_neg hdl] at heq
      exact tier1Match_bounds _ _ _ _ _ heq
  · split at h
    · rename_i mo2 d2 y2 hh mm hdate htime
      injection h with h
      have hy : y = y2 := by
        have := congrArg (fun t => t.1) h
        simpa using this.symm
      have hmo : mo = mo2 := by
        have := congrArg (fun t => t.2.1) h
        simpa using this.symm
      have hd : d = d2 := by
        have := congrArg (fun t => t.2.2.1) h
        simpa using this.symm
      subst hy hmo hd
      obtain ⟨h1, h2, h3⟩ := searchDate_bounds _ _ _ _ hdate
      exact ⟨h3, h1, h2⟩
    · exact absurd h (by simp)


theorem addToGroups_keys_mem_iff :
    ∀ (gs : List ((Nat × Nat × Nat) × List (String × Entry)))
      (k0 : Nat × Nat × Nat) (v : String × Entry) (k : Nat × Nat × Nat),
      k ∈ (addToGroups gs k0 v).map (fun g => g.1)
        ↔ k ∈ gs.map (fun g => g.1) ∨ k = k0 := by
  intro gs k0 v
  induction gs with
  | nil => intro k; simp [addToGroups]
  | cons g rest ih =>
    intro k
    obtain ⟨k2, vs⟩ := g
    by_cases hk : k2 = k0
    · simp only [addToGroups, if_pos hk, List.map_cons, List.mem_cons]
      subst hk
      tauto
    · simp only [addToGroups, if_neg hk, List.map_cons, List.mem_cons, ih k]
      tauto

theorem addToGroups_keys_nodup :
    ∀ (gs : List ((Nat × Nat × Nat) × List (String × Entry)))
      (k0 : Nat × Nat × Nat) (v : String × Entry),
      (gs.map (fun g => g.1)).Nodup →
      ((addToGroups gs k0 v).map (fun g => g.1)).Nodup := by
  intro gs k0 v
  induction gs with
  | nil => intro _; simp [addToGroups]
  | cons g rest ih =>
    intro hnd
    obtain ⟨k2, vs⟩ := g
    simp only [List.map_cons, List.nodup_cons] at hnd
    obtain ⟨hk2, hrest⟩ := hnd
    by_cases hk : k2 = k0
    · simp only [addToGroups, if_pos hk, List.map_cons, List.nodup_cons]
      exact ⟨hk2, hrest⟩
    · simp only [addToGroups, if_neg hk, List.map_cons, List.nodup_cons]
      refine ⟨?_, ih hrest⟩
      intro hmem
      rcases (addToGroups_keys_mem_iff rest k0 v k2).mp hmem with h | h
      · exact hk2 h
      · exact hk h

theorem buildGroupsGo_keys_nodup (l : List Entry) :
    ∀ gs : List ((Nat × Nat × Nat) × List (String × Entry)),
      (gs.map (fun g => g.1)).Nodup →
      (((l.foldl (fun gs e =>
          match parse_entry_datetime_parts e with
          | none => gs
          | some (y, mo, d, hm) => addToGroups gs (y, mo, d) (hm, e)) gs)).map
        (fun g => g.1)).Nodup := by
  induction l with
  | nil => intro gs h; simpa using h
  | cons e rest ih =>
    intro gs h
    simp only [List.foldl_cons]
    cases hp : parse_entry_datetime_parts e with
    | none => exact ih gs h
    | some r =>
      obtain ⟨y, mo, d, hm⟩ := r
      exact ih _ (addToGroups_keys_nodup gs (y, mo, d) (hm, e) h)

theorem buildGroups_keys_nodup (entries : List Entry) :
    ((buildGroups entries).map (fun g => g.1)).Nodup :=
  buildGroupsGo_keys_nodup entries [] (by simp)

theorem buildGroupsGo_keys_iff (k : Nat × Nat × Nat) :
    ∀ (l : List Entry) (gs : List ((Nat × Nat × Nat) × List (String × Entry))),
      k ∈ ((l.foldl (fun gs e =>
          match parse_entry_datetime_parts e with
          | none => gs
          | some (y, mo, d, hm) => addToGroups gs (y, mo, d) (hm, e)) gs)).map
        (fun g => g.1)
      ↔ k ∈ gs.map (fun g => g.1)
        ∨ ∃ e ∈ l, ∃ hm, parse_entry_datetime_parts e
            = some (k.1, k.2.1, k.2.2, hm) := by
  intro l
  induction l with
  | nil => intro gs; simp
  | cons e rest ih =>
    intro gs
    simp only [List.foldl_cons]
    cases hp : parse_entry_datetime_parts e with
    | none =>
      rw [ih gs]
      constructor
      · rintro (h | h)
        · exact Or.inl h
        · obtain ⟨e2, he2, hm2, hp2⟩ := h
          exact Or.inr ⟨e2, List.mem_cons_of_mem _ he2, hm2, hp2⟩
      · rintro (h | h)
        · exact Or.inl h
        · obtain ⟨e2, he2, hm2, hp2⟩ := h
          rcases List.mem_cons.mp he2 with rfl | he3
          · rw [hp] at hp2; cases hp2
          · exact Or.inr ⟨e2, he3, hm2, hp2⟩
    | some r =>
      obtain ⟨y, mo, d, hm⟩ := r
      rw [ih _]
      rw [addToGroups_keys_mem_iff]
      constructor
      · rintro ((h | h) | h)
        · exact Or.inl h
        · subst h
          exact Or.inr ⟨e, List.mem_cons_self _ _, hm, by rw [hp]⟩
        · obtain ⟨e2, he2, hm2, hp2⟩ := h
          exact Or.inr ⟨e2, List.mem_cons_of_mem _ he2, hm2, hp2⟩
      · rintro (h | h)
        · exact Or.inl (Or.inl h)
        · obtain ⟨e2, he2, hm2, hp2⟩ := h
          rcases List.mem_cons.mp he2 with rfl | he3
          · rw [hp] at hp2
            injection hp2 with hp2
            refine Or.inl (Or.inr ?_)
            have h1 := congrArg (fun t => t.1) hp2
            have h2 := congrArg (fun t => t.2.1) hp2
            have h3 := congrArg (fun t => t.2.2.1) hp2
            simp only at h1 h2 h3
            cases k with
            | mk ka kb =>
              cases kb with
              | mk kb1 kb2 =>
                simp only at h1 h2 h3
                simp [h1.symm, h2.symm, h3.symm]
          · exact Or.inr ⟨e2, he3, hm2, hp2⟩

theorem buildGroups_keys_iff (entries : List Entry) (k : Nat × Nat × Nat) :
    k ∈ (buildGroups entries).map (fun g => g.1)
      ↔ ∃ e ∈ entries, ∃ hm, parse_entry_datetime_parts e
          = some (k.1, k.2.1, k.2.2, hm) := by
  rw [buildGroups, buildGroupsGo_keys_iff]
  simp

theorem finalGroups_keys_eq (entries : List Entry) :
    (finalGroups entries).map (fun g => g.1)
      = (stableSort keyLe (buildGroups entries)).map (fun g => g.1) := by
  unfold finalGroups
  rw [List.map_map]
  rfl

theorem finalGroups_keys_perm (entries : List Entry) :
    ((finalGroups entries).map (fun g => g.1)).Perm
      ((buildGroups entries).map (fun g => g.1)) := by
  rw [finalGroups_keys_eq]
  exact (stableSort_perm keyLe (buildGroups entries)).map _

theorem finalGroups_keys_nodup (entries : List Entry) :
    ((finalGroups entries).map (fun g => g.1)).Nodup :=
  (finalGroups_keys_perm entries).nodup_iff.mpr (buildGroups_keys_nodup entries)

theorem finalGroups_keys_iff (entries : List Entry) (k : Nat × Nat × Nat) :
    k ∈ (finalGroups entries).map (fun g => g.1)
      ↔ ∃ e ∈ entries, ∃ hm, parse_entry_datetime_parts e
          = some (k.1, k.2.1, k.2.2, hm) := by
  rw [(finalGroups_keys_perm entries).mem_iff]
  exact buildGroups_keys_iff entries k

theorem startsWithCh_append_self :
    ∀ (a b : List Char), startsWithCh a (a ++ b) = true
  | [], b => rfl
  | c :: a2, b => by
    simp [startsWithCh, List.append_eq, startsWithCh_append_self a2 b]

theorem dayRelPath_data (y mo d : Nat) :
    (dayRelPath y mo d).data
      = (pad4 y).data ++ ("/" : String).data ++ ((pad2 mo).data
        ++ (("/" : String).data ++ ((pad4 y).data ++ (("-" : String).data
        ++ ((pad2 mo).data ++ (("-" : String).data ++ ((pad2 d).data
        ++ (".md" : String).data))))))) := by
  simp [dayRelPath, String.data_append]

theorem dayRelPath_data_inj (y1 mo1 d1 y2 mo2 d2 : Nat)
    (hy1 : y1 < 10000) (hmo1 : mo1 < 100) (hd1 : d1 < 100)
    (hy2 : y2 < 10000) (hmo2 : mo2 < 100) (hd2 : d2 < 100)
    (h : (dayRelPath y1 mo1 d1).data = (dayRelPath y2 mo2 d2).data) :
    y1 = y2 ∧ mo1 = mo2 ∧ d1 = d2 := by
  rw [dayRelPath_data, dayRelPath_data] at h
  rw [List.append_assoc, List.append_assoc] at h
  obtain ⟨h1, h2⟩ := List.append_inj h
    (by rw [pad4_data_length y1 hy1, pad4_data_length y2 hy2])
  have hy := pad4_data_inj _ _ h1
  subst hy
  have h3 := List.append_cancel_left h2
  obtain ⟨h4, h5⟩ := List.append_inj h3
    (by rw [pad2_data_length mo1 hmo1, pad2_data_length mo2 hmo2])
  have hmo := pad2_data_inj _ _ h4
  subst hmo
  have h6 := List.append_cancel_left h5
  have h7 := List.append_cancel_left h6
  have h8 := List.append_cancel_left h7
  have h9 := List.append_cancel_left h8
  have h10 := List.append_cancel_left h9
  obtain ⟨h11, -⟩ := List.append_inj h10
    (by rw [pad2_data_length d1 hd1, pad2_data_length d2 hd2])
  exact ⟨rfl, rfl, pad2_data_inj _ _ h11⟩

theorem mdPaths_eq_map_keys (entries : List Entry) (mdRoot : String) :
    mdPaths entries mdRoot
      = ((finalGroups entries).map (fun g => g.1)).map
          (fun k => mdRoot ++ "/" ++ dayRelPath k.1 k.2.1 k.2.2) := by
  unfold mdPaths write_split_markdown
  rw [List.map_map, List.map_map]
  rfl

theorem applyMarkdownExport_mem_iff (fs : List (String × String))
    (mdRoot : String) (entries : List Entry) (p : String)
    (hp : underRoot mdRoot p = true) :
    (∃ c, (p, c) ∈ applyMarkdownExport fs mdRoot entries)
      ↔ p ∈ mdPaths entries mdRoot := by
  constructor
  · rintro ⟨c, hc⟩
    unfold applyMarkdownExport at hc
    rcases List.mem_append.mp hc with hfil | hnew
    · have := (List.mem_filter.mp hfil).2
      simp only [Bool.not_eq_true'] at this
      rw [hp] at this
      cases this
    · exact List.mem_map.mpr ⟨(p, c), hnew, rfl⟩
  · intro hmem
    obtain ⟨pc, hpc, hfst⟩ := List.mem_map.mp hmem
    obtain ⟨p2, c2⟩ := pc
    subst hfst
    exact ⟨c2, List.mem_append_right _ hpc⟩

/-- C9: the Markdown export destructively replaces the entire root
subtree: afterwards the files under the root are exactly one file per
resolved day of the current record set (the generated paths, which are
pairwise distinct and in bijection with the resolved days), and any
path under the root that a second, smaller export does not regenerate
is gone. -/
theorem markdown_destructive_replace (fs : List (String × String))
    (mdRoot : String) (entries : List Entry) :
    (∀ p, underRoot mdRoot p = true →
      ((∃ c, (p, c) ∈ applyMarkdownExport fs mdRoot entries)
        ↔ p ∈ mdPaths entries mdRoot))
    ∧ (mdPaths entries mdRoot).Nodup
    ∧ (∀ k, k ∈ (finalGroups entries).map (fun g => g.1)
        ↔ ∃ e ∈ entries, ∃ hm,
            parse_entry_datetime_parts e = some (k.1, k.2.1, k.2.2, hm))
    ∧ (∀ entries2 p, underRoot mdRoot p = true →
        p ∉ mdPaths entries2 mdRoot →
        ¬ ∃ c, (p, c) ∈ applyMarkdownExport
            (applyMarkdownExport fs mdRoot entries) mdRoot entries2) := by
  refine ⟨fun p hp => applyMarkdownExport_mem_iff fs mdRoot entries p hp, ?_,
    finalGroups_keys_iff entries, ?_⟩
  · rw [mdPaths_eq_map_keys]
    apply List.Nodup.map_on ?_ (finalGroups_keys_nodup entries)
    intro k1 hk1 k2 hk2 heq
    obtain ⟨e1, -, hm1, hp1⟩ := (finalGroups_keys_iff entries k1).mp hk1
    obtain ⟨e2, -, hm2, hp2⟩ := (finalGroups_keys_iff entries k2).mp hk2
    obtain ⟨hb1y, hb1m, hb1d⟩ := parse_day_bounds e1 _ _ _ _ hp1
    obtain ⟨hb2y, hb2m, hb2d⟩ := parse_day_bounds e2 _ _ _ _ hp2
    have hdata := congrArg String.data heq
    simp only [String.data_append] at hdata
    rw [List.append_assoc, List.append_assoc] at hdata
    have hrel := List.append_cancel_left (List.append_cancel_left hdata)
    obtain ⟨hy, hmo, hd⟩ := dayRelPath_data_inj k1.1 k1.2.1 k1.2.2
      k2.1 k2.2.1 k2.2.2 hb1y hb1m hb1d hb2y hb2m hb2d hrel
    obtain ⟨ka, kb, kc⟩ := k1
    obtain ⟨la, lb, lc⟩ := k2
    simp only at hy hmo hd
    simp [hy, hmo, hd]
  · intro entries2 p hp hnp hex
    exact hnp ((applyMarkdownExport_mem_iff _ mdRoot entries2 p hp).mp hex)

/-- Witness for C9: a stale day file under the root from a previous run
does not survive the export of a one-record set. -/
theorem markdown_destructive_replace_witness :
    (∃ c, ("out_md/2025/01/2025-01-01.md", c)
        ∈ applyMarkdownExport
            [("other/x.md", "keep"), ("out_md/2025/01/2025-01-01.md", "stale")]
            "out_md"
            [{ id := "a1", date_label := "3月5日2026", datetime_iso := "",
               datetime_local := "", time_label := "8:30", title := "",
               text := "", location := "", source_url := "" }])
      ↔ "out_md/2025/01/2025-01-01.md" ∈ mdPaths
          [{ id := "a1", date_label := "3月5日2026", datetime_iso := "",
             datetime_local := "", time_label := "8:30", title := "",
             text := "", location := "", source_url := "" }] "out_md" :=
  (markdown_destructive_replace
      [("other/x.md", "keep"), ("out_md/2025/01/2025-01-01.md", "stale")]
      "out_md"
      [{ id := "a1", date_label := "3月5日2026", datetime_iso := "",
         datetime_local := "", time_label := "8:30", title := "",
         text := "", location := "", source_url := "" }]).1
    "out_md/2025/01/2025-01-01.md" (by decide)

end ICity
